import Mathlib

/-!
Verification of the title-block detection / fitting / extraction / grouping
core of the drawing-processing backend.

Shallow embedding conventions:
* Python floats are modelled as rationals (ℚ); all arithmetic is exact.
* Python lists are Lean lists; Python dicts are association lists in
  insertion order (Python dicts preserve insertion order).
* Optional values (None) are Lean Option values.
* Python truthiness on strings/ints/options is modelled explicitly where the
  source relies on it.
Each definition mirrors one function of the source tree; the source file and
function are named in the doc comment.
-/

set_option maxHeartbeats 1600000

namespace Spec2Proof

/-- Axis-aligned bounding box, from src/backend/src/models/frame.py, class BBox. -/
structure BBox where
  xmin : ℚ
  ymin : ℚ
  xmax : ℚ
  ymax : ℚ
deriving DecidableEq, Repr

/-- BBox.width property. -/
def BBox.width (b : BBox) : ℚ := b.xmax - b.xmin

/-- BBox.height property. -/
def BBox.height (b : BBox) : ℚ := b.ymax - b.ymin

/-- BBox.intersects, from frame.py. -/
def BBox.intersects (b other : BBox) : Bool :=
  !(decide (b.xmax < other.xmin) || decide (b.xmin > other.xmax) ||
    decide (b.ymax < other.ymin) || decide (b.ymin > other.ymax))

/-- The rectangle invariant stated by the spec data model: xmin ≤ xmax and
ymin ≤ ymax. -/
def BBox.inv (b : BBox) : Prop := b.xmin ≤ b.xmax ∧ b.ymin ≤ b.ymax

instance (b : BBox) : Decidable b.inv := by unfold BBox.inv; infer_instance

/-! ## PaperFitter (src/backend/src/cad/detection/paper_fitter.py) -/

/-- The literal 1e-9 used by PaperFitter as a division guard. -/
def ratEps : ℚ := 1 / 1000000000

/-- Standard paper size entry, from src/backend/src/config/spec_loader.py,
class PaperVariant (fields W, H, profile). -/
structure PaperVariant where
  W : ℚ
  H : ℚ
  profile : String
deriving DecidableEq, Repr

/-- Constructor arguments of PaperFitter.__init__. -/
structure PaperFitterCfg where
  allowRotation : Bool
  uniformScaleRequired : Bool
  uniformScaleTol : ℚ
  errorMetric : String
deriving Repr

/-- The default constructor arguments of PaperFitter.__init__. -/
def PaperFitterCfg.default : PaperFitterCfg :=
  { allowRotation := true
    uniformScaleRequired := true
    uniformScaleTol := 1 / 50
    errorMetric := "max_rel_error(W,H)" }

/-- PaperFitter._compute_error. -/
def computeError (cfg : PaperFitterCfg) (Wobs Hobs Wstd Hstd sx sy : ℚ) : ℚ :=
  if cfg.errorMetric = "max_rel_error(W,H)" then
    let scale := (sx + sy) / 2
    max (|Wstd * scale - Wobs| / max Wobs ratEps)
        (|Hstd * scale - Hobs| / max Hobs ratEps)
  else
    |sx - sy| / max sx (max sy ratEps)

/-- PaperFitter._evaluate_variant: compute per-axis scales, reject a pairing
that fails the uniform-scale check, otherwise return (sx, sy, error). -/
def evaluateVariant (cfg : PaperFitterCfg) (Wobs Hobs Wstd Hstd : ℚ) :
    Option (ℚ × ℚ × ℚ) :=
  let sx := Wobs / Wstd
  let sy := Hobs / Hstd
  if cfg.uniformScaleRequired = true ∧
      |sx - sy| / max sx (max sy ratEps) > cfg.uniformScaleTol then
    none
  else
    some (sx, sy, computeError cfg Wobs Hobs Wstd Hstd sx sy)

/-- One element of the list returned by PaperFitter.fit_all:
the tuple (variant_id, sx, sy, profile, error). -/
structure FitEntry where
  variantId : String
  sx : ℚ
  sy : ℚ
  profile : String
  error : ℚ
deriving DecidableEq, Repr

/-- Packaging of one evaluated pairing as the list entry appended by
PaperFitter.fit_all (empty when the pairing was rejected). -/
def entryOf (vid profile : String) : Option (ℚ × ℚ × ℚ) → List FitEntry
  | some (sx, sy, e) => [⟨vid, sx, sy, profile, e⟩]
  | none => []

/-- The per-variant contribution of the PaperFitter.fit_all loop body:
skip the variant when W, H or profile is falsy, otherwise evaluate the
normal orientation and, when rotation is allowed, the swapped one. -/
def fitAllOne (cfg : PaperFitterCfg) (Wobs Hobs : ℚ)
    (v : String × PaperVariant) : List FitEntry :=
  if v.2.W = 0 ∨ v.2.H = 0 ∨ v.2.profile = "" then []
  else
    entryOf v.1 v.2.profile (evaluateVariant cfg Wobs Hobs v.2.W v.2.H) ++
    (if cfg.allowRotation then
       entryOf v.1 v.2.profile (evaluateVariant cfg Wobs Hobs v.2.H v.2.W)
     else [])

/-- PaperFitter.fit_all: all qualifying (variant, orientation) pairings in
catalog order, normal orientation before the rotated one. -/
def fitAll (cfg : PaperFitterCfg) (bbox : BBox)
    (variants : List (String × PaperVariant)) : List FitEntry :=
  (variants.map (fitAllOne cfg bbox.width bbox.height)).flatten

/-- One step of the PaperFitter.fit selection loop; the accumulator none
plays the role of best_error = inf (every concrete rational error is below
it), and the strict comparison error < best_error keeps the first minimum. -/
def fitStep (best : Option FitEntry) (e : FitEntry) : Option FitEntry :=
  match best with
  | none => some e
  | some b => if e.error < b.error then some e else some b

/-- PaperFitter.fit: fold the selection loop over fit_all and drop the error
component of the winner. -/
def fit (cfg : PaperFitterCfg) (bbox : BBox)
    (variants : List (String × PaperVariant)) :
    Option (String × ℚ × ℚ × String) :=
  ((fitAll cfg bbox variants).foldl fitStep none).map
    (fun b => (b.variantId, b.sx, b.sy, b.profile))

/-- The uniform-scale tolerance being exceeded for one pairing, spelled the
way PaperFitter._evaluate_variant computes it. -/
def uniformExceeds (cfg : PaperFitterCfg) (Wobs Hobs Wstd Hstd : ℚ) : Prop :=
  |Wobs / Wstd - Hobs / Hstd| /
      max (Wobs / Wstd) (max (Hobs / Hstd) ratEps) > cfg.uniformScaleTol

theorem foldl_fitStep_isSome (l : List FitEntry) (b : FitEntry) :
    (l.foldl fitStep (some b)).isSome = true := by
  induction l generalizing b with
  | nil => rfl
  | cons e t ih =>
    simp only [List.foldl_cons, fitStep]
    split <;> exact ih _

theorem foldl_fitStep_none_iff (l : List FitEntry) :
    l.foldl fitStep none = none ↔ l = [] := by
  cases l with
  | nil => simp
  | cons e t =>
    simp only [List.foldl_cons]
    constructor
    · intro h
      have := foldl_fitStep_isSome t e
      rw [show fitStep none e = some e from rfl] at h
      rw [h] at this
      simp at this
    · intro h; cases h

theorem foldl_fitStep_min (l : List FitEntry) :
    ∀ (b : FitEntry) (r : FitEntry), l.foldl fitStep (some b) = some r →
      (r ∈ l ∨ r = b) ∧ r.error ≤ b.error ∧ ∀ e ∈ l, r.error ≤ e.error := by
  induction l with
  | nil =>
    intro b r h
    simp only [List.foldl_nil, Option.some.injEq] at h
    subst h
    exact ⟨Or.inr rfl, le_refl _, by intro e he; cases he⟩
  | cons x t ih =>
    intro b r h
    simp only [List.foldl_cons, fitStep] at h
    by_cases hx : x.error < b.error
    · rw [if_pos hx] at h
      obtain ⟨hmem, hle, hall⟩ := ih x r h
      refine ⟨?_, ?_, ?_⟩
      · rcases hmem with hm | hm
        · exact Or.inl (List.mem_cons_of_mem _ hm)
        · exact Or.inl (hm ▸ List.mem_cons_self _ _)
      · exact le_trans hle (le_of_lt hx)
      · intro e he
        rcases List.mem_cons.mp he with he | he
        · exact he ▸ hle
        · exact hall e he
    · rw [if_neg hx] at h
      obtain ⟨hmem, hle, hall⟩ := ih b r h
      refine ⟨?_, hle, ?_⟩
      · rcases hmem with hm | hm
        · exact Or.inl (List.mem_cons_of_mem _ hm)
        · exact Or.inr hm
      · intro e he
        rcases List.mem_cons.mp he with he | he
        · exact he ▸ le_trans hle (not_lt.mp hx)
        · exact hall e he

theorem fitAll_entry_none (cfg : PaperFitterCfg) (bbox : BBox)
    (variants : List (String × PaperVariant))
    (h : ∀ p ∈ variants, fitAllOne cfg bbox.width bbox.height p = []) :
    fitAll cfg bbox variants = [] := by
  unfold fitAll
  rw [List.flatten_eq_nil_iff]
  intro l hl
  rcases List.mem_map.mp hl with ⟨p, hp, rfl⟩
  exact h p hp

/-- C1: PaperFitter.fit returns, among all evaluated (variant, orientation)
pairings that pass the uniform-scale tolerance check (the fit_all list), one
with minimal fit error, and it returns none exactly when no pairing
qualifies; in particular, when uniform scaling is required and every pairing
of every usable variant exceeds the uniform-scale tolerance, it returns
none. -/
theorem C1_paperFitter_fit_minimal (cfg : PaperFitterCfg) (bbox : BBox)
    (variants : List (String × PaperVariant)) :
    (fit cfg bbox variants = none ↔ fitAll cfg bbox variants = []) ∧
    (∀ vid sx sy p, fit cfg bbox variants = some (vid, sx, sy, p) →
      ∃ e : FitEntry, e ∈ fitAll cfg bbox variants ∧
        e.variantId = vid ∧ e.sx = sx ∧ e.sy = sy ∧ e.profile = p ∧
        ∀ e' ∈ fitAll cfg bbox variants, e.error ≤ e'.error) ∧
    (cfg.uniformScaleRequired = true →
      (∀ vp : String × PaperVariant, vp ∈ variants →
        uniformExceeds cfg bbox.width bbox.height vp.2.W vp.2.H ∧
        uniformExceeds cfg bbox.width bbox.height vp.2.H vp.2.W) →
      fit cfg bbox variants = none) := by
  refine ⟨?_, ?_, ?_⟩
  · constructor
    · intro h
      unfold fit at h
      rcases hopt : (fitAll cfg bbox variants).foldl fitStep none with _ | b
      · exact (foldl_fitStep_none_iff _).mp hopt
      · rw [hopt] at h; exact Option.noConfusion h
    · intro h
      unfold fit
      rw [h]
      rfl
  · intro vid sx sy p h
    unfold fit at h
    rcases hopt : (fitAll cfg bbox variants).foldl fitStep none with _ | b
    · rw [hopt] at h; exact Option.noConfusion h
    · rw [hopt] at h
      simp only [Option.map_some', Option.some.injEq, Prod.mk.injEq] at h
      obtain ⟨h1, h2, h3, h4⟩ := h
      rcases hl : fitAll cfg bbox variants with _ | ⟨x, t⟩
      · rw [hl] at hopt; cases hopt
      · rw [hl] at hopt
        simp only [List.foldl_cons] at hopt
        rw [show fitStep none x = some x from rfl] at hopt
        obtain ⟨hmem, hle, hall⟩ := foldl_fitStep_min t x b hopt
        refine ⟨b, ?_, h1, h2, h3, h4, ?_⟩
        · rcases hmem with hm | hm
          · exact List.mem_cons_of_mem _ hm
          · rw [hm]
            exact List.mem_cons_self _ _
        · intro e' he'
          rcases List.mem_cons.mp he' with he' | he'
          · rw [he']
            exact hle
          · exact hall e' he'
  · intro hreq hall
    unfold fit
    rw [fitAll_entry_none cfg bbox variants ?_]
    · rfl
    · intro vp hvp
      obtain ⟨h1, h2⟩ := hall vp hvp
      unfold fitAllOne
      by_cases hskip : vp.2.W = 0 ∨ vp.2.H = 0 ∨ vp.2.profile = ""
      · rw [if_pos hskip]
      · rw [if_neg hskip]
        have e1 : evaluateVariant cfg bbox.width bbox.height vp.2.W vp.2.H = none := by
          unfold evaluateVariant
          rw [if_pos ⟨hreq, h1⟩]
        have e2 : evaluateVariant cfg bbox.width bbox.height vp.2.H vp.2.W = none := by
          unfold evaluateVariant
          rw [if_pos ⟨hreq, h2⟩]
        rw [e1, e2]
        cases cfg.allowRotation <;> rfl

/-! ## Data model (src/backend/src/models/frame.py, sheet_set.py) -/

/-- Parsed title-block fields, from frame.py, class TitleblockFields.
All fields default to None. -/
structure TitleblockFields where
  internal_code : Option String := none
  external_code : Option String := none
  album_code : Option String := none
  engineering_no : Option String := none
  subitem_no : Option String := none
  paper_size_text : Option String := none
  discipline : Option String := none
  scale_text : Option String := none
  scale_denominator : Option ℚ := none
  page_total : Option ℤ := none
  page_index : Option ℤ := none
  title_cn : Option String := none
  title_en : Option String := none
  revision : Option String := none
  status : Option String := none
  date : Option String := none
deriving DecidableEq, Repr

/-- Runtime fields of one frame, from frame.py, class FrameRuntime.
Paths are modelled as strings. -/
structure FrameRuntime where
  frame_id : String
  source_file : String
  outer_bbox : BBox
  paper_variant_id : Option String := none
  sx : Option ℚ := none
  sy : Option ℚ := none
  geom_scale_factor : Option ℚ := none
  roi_profile_id : Option String := none
  scale_mismatch : Bool := false
  flags : List String := []
  pdf_path : Option String := none
  dwg_path : Option String := none
deriving DecidableEq, Repr

/-- Complete frame metadata, from frame.py, class FrameMeta.  The raw_extracts
debug/audit dict (arbitrary values, unused by any logic verified here) is not
modelled. -/
structure FrameMeta where
  runtime : FrameRuntime
  titleblock : TitleblockFields := {}
deriving DecidableEq, Repr

/-- FrameMeta.frame_id property. -/
def FrameMeta.frame_id (f : FrameMeta) : String := f.runtime.frame_id

/-- One page of a sheet set, from sheet_set.py, class PageInfo. -/
structure PageInfo where
  page_index : ℤ
  outer_bbox : BBox
  has_titleblock : Bool := false
  frame_meta : Option FrameMeta := none
deriving DecidableEq, Repr

/-- A4 multi-page sheet set, from sheet_set.py, class SheetSet. -/
structure SheetSet where
  sheet_set_type : String := "A4_MULTI_PAGE_001"
  paper : String := "A4"
  cluster_id : String
  page_total : ℤ
  pages : List PageInfo := []
  master_page : Option PageInfo := none
  flags : List String := []
deriving DecidableEq, Repr

/-- The Python expression list(range(1, page_total + 1)) on an int. -/
def pageRange (n : ℤ) : List ℤ :=
  (List.range n.toNat).map (fun i => (i : ℤ) + 1)

/-- The number of distinct elements of a list: the value of len(set(l)).
Each element is counted at its last occurrence. -/
def distinctCount : List ℤ → ℕ
  | [] => 0
  | x :: xs => (if x ∈ xs then 0 else 1) + distinctCount xs

/-- The ascending sort sorted(...) applied to the page indices of a sheet
set (Python sorted; list sort is by value on ints). -/
def sortedIndices (ss : SheetSet) : List ℤ :=
  List.insertionSort (fun a b => a ≤ b) (ss.pages.map (·.page_index))

/-- SheetSet.validate_consistency, from sheet_set.py: a total function (the
source raises nothing) returning the sheet set with the advisory flags
appended, together with the list of newly appended flags. -/
def validateConsistency (ss : SheetSet) : SheetSet × List String :=
  let countFlags : List String :=
    if (ss.pages.length : ℤ) ≠ ss.page_total then ["A4多页_页数不一致"] else []
  let indices := sortedIndices ss
  let expected := pageRange ss.page_total
  let seqFlags : List String :=
    if indices ≠ expected then
      if indices.length ≠ distinctCount indices then ["A4多页_页码重复"]
      else ["A4多页_页码不连续"]
    else []
  let masterFlags : List String :=
    match ss.master_page with
    | some mp => if mp.page_index ≠ 1 then ["A4多页_首页页码异常"] else []
    | none => []
  let newFlags := countFlags ++ seqFlags ++ masterFlags
  ({ ss with flags := ss.flags ++ newFlags }, newFlags)

theorem distinctCount_le (l : List ℤ) : distinctCount l ≤ l.length := by
  induction l with
  | nil => exact le_refl _
  | cons x xs ih =>
    unfold distinctCount
    by_cases hx : x ∈ xs
    · rw [if_pos hx]
      simp only [List.length_cons]
      omega
    · rw [if_neg hx]
      simp only [List.length_cons]
      omega

theorem distinctCount_eq_iff (l : List ℤ) :
    distinctCount l = l.length ↔ l.Nodup := by
  induction l with
  | nil => simp [distinctCount]
  | cons x xs ih =>
    unfold distinctCount
    by_cases hx : x ∈ xs
    · rw [if_pos hx]
      simp only [List.nodup_cons]
      constructor
      · intro h
        simp only [List.length_cons] at h
        have := distinctCount_le xs
        omega
      · intro h
        exact absurd hx h.1
    · rw [if_neg hx]
      simp only [List.length_cons, List.nodup_cons]
      constructor
      · intro h
        exact ⟨hx, ih.mp (by omega)⟩
      · intro h
        have := ih.mpr h.2
        omega

theorem sortedIndices_nodup_iff (ss : SheetSet) :
    (sortedIndices ss).Nodup ↔ (ss.pages.map (·.page_index)).Nodup :=
  (List.perm_insertionSort _ _).nodup_iff

/-- Test fixture: a bare page with a given index. -/
def mkSimplePage (i : ℤ) : PageInfo :=
  { page_index := i, outer_bbox := ⟨0, 0, 210, 297⟩ }

/-- Test fixture: a sheet set with the given page indices, total and master. -/
def ssOf (idx : List ℤ) (total : ℤ) (master : Option PageInfo) : SheetSet :=
  { cluster_id := "c", page_total := total, pages := idx.map mkSimplePage,
    master_page := master }

/-- C3: validate_consistency is a total, flag-appending operation: on pages
[1,2,3] with page_total 3 it appends no flags, on [1,1,3] it appends exactly
the duplicate-index flag, on [1,2] with page_total 3 it appends the
page-count-mismatch flag (plus the non-contiguity flag); in general the
duplicate-index flag and the non-contiguity flag are mutually exclusive
(duplicate indices versus merely non-contiguous ones), a master page whose
page_index is not 1 is flagged, and the stored page_total and pages are
returned unchanged. -/
theorem C3_validateConsistency_flags :
    (validateConsistency (ssOf [1, 2, 3] 3 (some (mkSimplePage 1)))).2 = [] ∧
    (validateConsistency (ssOf [1, 1, 3] 3 (some (mkSimplePage 1)))).2 =
      ["A4多页_页码重复"] ∧
    ("A4多页_页数不一致" ∈
      (validateConsistency (ssOf [1, 2] 3 (some (mkSimplePage 1)))).2 ∧
      (validateConsistency (ssOf [1, 2] 3 (some (mkSimplePage 1)))).2 =
        ["A4多页_页数不一致", "A4多页_页码不连续"]) ∧
    (∀ ss : SheetSet,
      (validateConsistency ss).1.page_total = ss.page_total ∧
      (validateConsistency ss).1.pages = ss.pages ∧
      (validateConsistency ss).1.flags = ss.flags ++ (validateConsistency ss).2) ∧
    (∀ ss : SheetSet,
      ("A4多页_页数不一致" ∈ (validateConsistency ss).2 ↔
        (ss.pages.length : ℤ) ≠ ss.page_total) ∧
      ("A4多页_页码重复" ∈ (validateConsistency ss).2 ↔
        sortedIndices ss ≠ pageRange ss.page_total ∧
        ¬ (ss.pages.map (·.page_index)).Nodup) ∧
      ("A4多页_页码不连续" ∈ (validateConsistency ss).2 ↔
        sortedIndices ss ≠ pageRange ss.page_total ∧
        (ss.pages.map (·.page_index)).Nodup) ∧
      ("A4多页_首页页码异常" ∈ (validateConsistency ss).2 ↔
        ∃ mp, ss.master_page = some mp ∧ mp.page_index ≠ 1)) := by
  refine ⟨by decide, by decide, ⟨by decide, by decide⟩, ?_, ?_⟩
  · intro ss
    exact ⟨rfl, rfl, rfl⟩
  · intro ss
    have hdup : (sortedIndices ss).length ≠ distinctCount (sortedIndices ss) ↔
        ¬ (ss.pages.map (·.page_index)).Nodup := by
      rw [← sortedIndices_nodup_iff, ← distinctCount_eq_iff]
      omega
    unfold validateConsistency
    by_cases h1 : (ss.pages.length : ℤ) ≠ ss.page_total <;>
      by_cases h2 : sortedIndices ss ≠ pageRange ss.page_total <;>
      by_cases hnd : (ss.pages.map (·.page_index)).Nodup <;>
      rcases hm : ss.master_page with _ | mp <;>
      first
        | (by_cases h4 : mp.page_index ≠ 1 <;> simp [h1, h2, hm, h4, hnd, hdup])
        | simp [h1, h2, hm, hnd, hdup]

/-! ## A4 adjacency (src/backend/src/cad/a4_multipage.py and
src/backend/src/cad/detection/anchor_first_locator.py) -/

/-- Fitted frame candidate, from anchor_first_locator.py, class
CandidateFrame. -/
structure CandidateFrame where
  bbox : BBox
  paper_variant_id : String
  sx : ℚ
  sy : ℚ
  roi_profile_id : String
  anchor_roi : BBox
  fit_error : ℚ
deriving DecidableEq, Repr

/-- The shared neighbor formula on two outer boxes: per-axis clamped gap
below gap_factor times the minimum of the four dimensions, on both axes. -/
def bboxNeighbors (b1 b2 : BBox) (gapFactor : ℚ) : Bool :=
  let minSize := min b1.width (min b1.height (min b2.width b2.height))
  let threshold := gapFactor * minSize
  let dx := max 0 (max b1.xmin b2.xmin - min b1.xmax b2.xmax)
  let dy := max 0 (max b1.ymin b2.ymin - min b1.ymax b2.ymax)
  decide (dx < threshold) && decide (dy < threshold)

/-- A4MultipageGrouper._frames_are_neighbors. -/
def framesAreNeighbors (f1 f2 : FrameMeta) (gapFactor : ℚ) : Bool :=
  bboxNeighbors f1.runtime.outer_bbox f2.runtime.outer_bbox gapFactor

/-- AnchorFirstLocator._are_neighbors (the identical formula on candidate
boxes, with the gap factor taken from the a4_multipage configuration). -/
def areNeighbors (c1 c2 : CandidateFrame) (a4GapFactor : ℚ) : Bool :=
  bboxNeighbors c1.bbox c2.bbox a4GapFactor

/-- The neighbor relation as the spec words it: on each axis the gap is
max(0, nearest-edge separation), and both gaps must be below
gap_factor times the minimum width/height of either frame. -/
def specNeighbors (b1 b2 : BBox) (gapFactor : ℚ) : Prop :=
  max 0 (max (b2.xmin - b1.xmax) (b1.xmin - b2.xmax)) <
      gapFactor * min b1.width (min b1.height (min b2.width b2.height)) ∧
  max 0 (max (b2.ymin - b1.ymax) (b1.ymin - b2.ymax)) <
      gapFactor * min b1.width (min b1.height (min b2.width b2.height))

theorem clamp_gap_eq (l1 h1 l2 h2 : ℚ) (hb1 : l1 ≤ h1) (hb2 : l2 ≤ h2) :
    max 0 (max l1 l2 - min h1 h2) = max 0 (max (l2 - h1) (l1 - h2)) := by
  rcases le_total l1 l2 with hl | hl <;> rcases le_total h1 h2 with hh | hh
  · rw [max_eq_right hl, min_eq_left hh,
      max_eq_left (by linarith : l1 - h2 ≤ l2 - h1)]
  · rw [max_eq_right hl, min_eq_right hh,
      max_eq_left (by linarith : l2 - h2 ≤ 0),
      max_eq_left (max_le (by linarith) (by linarith))]
  · rw [max_eq_left hl, min_eq_left hh,
      max_eq_left (by linarith : l1 - h1 ≤ 0),
      max_eq_left (max_le (by linarith) (by linarith))]
  · rw [max_eq_left hl, min_eq_right hh,
      max_eq_right (by linarith : l2 - h1 ≤ l1 - h2)]

theorem bboxNeighbors_iff_spec (b1 b2 : BBox) (gapFactor : ℚ)
    (h1 : b1.inv) (h2 : b2.inv) :
    bboxNeighbors b1 b2 gapFactor = true ↔ specNeighbors b1 b2 gapFactor := by
  unfold bboxNeighbors specNeighbors
  rw [clamp_gap_eq b1.xmin b1.xmax b2.xmin b2.xmax h1.1 h2.1,
      clamp_gap_eq b1.ymin b1.ymax b2.ymin b2.ymax h1.2 h2.2]
  simp

/-- Test fixture: an A4 frame at the given lower-left corner (210 x 297). -/
def mkA4Frame (id : String) (x y : ℚ) : FrameMeta :=
  { runtime :=
    { frame_id := id, source_file := "drawing.dxf",
      outer_bbox := ⟨x, y, x + 210, y + 297⟩,
      paper_variant_id := some (("A4" : String)) } }

/-- C4: two A4 frames are neighbors exactly when the clamped nearest-edge
gap on each axis is below gap_factor times the minimum dimension of either
frame; this holds both for the grouper predicate and for the locator
predicate; two A4 boxes touching edge-to-edge are neighbors at the default
factor 0.5, and the same pair separated beyond 0.5 times the minimum
dimension on the x axis are not. -/
theorem C4_neighbors (gapFactor : ℚ) :
    (∀ f1 f2 : FrameMeta, f1.runtime.outer_bbox.inv → f2.runtime.outer_bbox.inv →
      (framesAreNeighbors f1 f2 gapFactor = true ↔
        specNeighbors f1.runtime.outer_bbox f2.runtime.outer_bbox gapFactor)) ∧
    (∀ c1 c2 : CandidateFrame, c1.bbox.inv → c2.bbox.inv →
      (areNeighbors c1 c2 gapFactor = true ↔
        specNeighbors c1.bbox c2.bbox gapFactor)) ∧
    framesAreNeighbors (mkA4Frame ("a") 0 0) (mkA4Frame ("b") 210 0) (1 / 2)
      = true ∧
    framesAreNeighbors (mkA4Frame ("a") 0 0) (mkA4Frame ("c") 320 0) (1 / 2)
      = false := by
  refine ⟨?_, ?_, by with_unfolding_all decide, by with_unfolding_all decide⟩
  · intro f1 f2 h1 h2
    exact bboxNeighbors_iff_spec _ _ _ h1 h2
  · intro c1 c2 h1 h2
    exact bboxNeighbors_iff_spec _ _ _ h1 h2

/-! ## Master identification (src/backend/src/cad/a4_multipage.py) -/

/-- Python truthiness of an optional string (None and the empty string are
falsy). -/
def truthyS : Option String → Bool
  | some s => decide (s ≠ "")
  | none => false

/-- Python truthiness of an optional int (None and 0 are falsy). -/
def truthyI : Option ℤ → Bool
  | some n => decide (n ≠ 0)
  | none => false

/-- A4MultipageGrouper._calculate_master_score: one point per populated key
field (engineering_no, internal_code, external_code, page_total), plus two
when page_index == 1. -/
def calculateMasterScore (f : FrameMeta) : ℤ :=
  (if truthyS f.titleblock.engineering_no then 1 else 0) +
  (if truthyS f.titleblock.internal_code then 1 else 0) +
  (if truthyS f.titleblock.external_code then 1 else 0) +
  (if truthyI f.titleblock.page_total then 1 else 0) +
  (if f.titleblock.page_index = some 1 then 2 else 0)

/-- One step of the A4MultipageGrouper._identify_master loop: replace the
best candidate only on a strictly greater score. -/
def identifyMasterStep : Option FrameMeta × ℤ → FrameMeta → Option FrameMeta × ℤ
  | (best, bestScore), f =>
    if calculateMasterScore f > bestScore then (some f, calculateMasterScore f)
    else (best, bestScore)

/-- A4MultipageGrouper._identify_master: fold the loop from
(best_master, best_score) = (None, -1). -/
def identifyMaster (cluster : List FrameMeta) : Option FrameMeta :=
  (cluster.foldl identifyMasterStep (none, -1)).1

theorem calculateMasterScore_nonneg (f : FrameMeta) :
    0 ≤ calculateMasterScore f := by
  unfold calculateMasterScore
  split_ifs <;> norm_num

theorem identifyMaster_fold_char (l : List FrameMeta) :
    ∀ b : FrameMeta,
      ∃ m pre post,
        l.foldl identifyMasterStep (some b, calculateMasterScore b) =
          (some m, calculateMasterScore m) ∧
        b :: l = pre ++ m :: post ∧
        (∀ f ∈ pre, calculateMasterScore f < calculateMasterScore m) ∧
        (∀ f ∈ b :: l, calculateMasterScore f ≤ calculateMasterScore m) := by
  induction l with
  | nil =>
    intro b
    refine ⟨b, [], [], rfl, rfl, ?_, ?_⟩
    · intro f hf
      cases hf
    · intro f hf
      rcases List.mem_cons.mp hf with h | h
      · exact h ▸ le_refl _
      · cases h
  | cons x t ih =>
    intro b
    by_cases hx : calculateMasterScore x > calculateMasterScore b
    · obtain ⟨m, pre, post, hfold, hdec, hpre, hall⟩ := ih x
      have hxm : calculateMasterScore x ≤ calculateMasterScore m :=
        hall x (List.mem_cons_self _ _)
      have hstep : identifyMasterStep (some b, calculateMasterScore b) x
          = (some x, calculateMasterScore x) := by
        simp only [identifyMasterStep]
        rw [if_pos hx]
      refine ⟨m, b :: pre, post, ?_, ?_, ?_, ?_⟩
      · simp only [List.foldl_cons, hstep]
        exact hfold
      · rw [List.cons_append, ← hdec]
      · intro f hf
        rcases List.mem_cons.mp hf with h | h
        · exact h ▸ lt_of_lt_of_le hx hxm
        · exact hpre f h
      · intro f hf
        rcases List.mem_cons.mp hf with h | h
        · exact h ▸ le_trans (le_of_lt hx) hxm
        · exact hall f h
    · obtain ⟨m, pre, post, hfold, hdec, hpre, hall⟩ := ih b
      have hstep : identifyMasterStep (some b, calculateMasterScore b) x
          = (some b, calculateMasterScore b) := by
        simp only [identifyMasterStep]
        rw [if_neg hx]
      have hfold' : (x :: t).foldl identifyMasterStep
          (some b, calculateMasterScore b) = (some m, calculateMasterScore m) := by
        simp only [List.foldl_cons, hstep]
        exact hfold
      rcases pre with _ | ⟨p0, pre'⟩
      · -- m = b: the head of the decomposition
        have hb : b = m := by
          have hthis := hdec
          simp only [List.nil_append] at hthis
          injection hthis
        subst hb
        refine ⟨b, [], x :: t, hfold', rfl, ?_, ?_⟩
        · intro f hf
          cases hf
        · intro f hf
          rcases List.mem_cons.mp hf with h | h
          · exact h ▸ le_refl _
          · rcases List.mem_cons.mp h with h2 | h2
            · exact h2 ▸ le_of_not_lt hx
            · exact hall f (List.mem_cons_of_mem _ h2)
      · -- m occurs inside t
        have hdec' : b = p0 ∧ t = pre' ++ m :: post := by
          have hthis := hdec
          simp only [List.cons_append] at hthis
          injection hthis with h1 h2
          exact ⟨h1, h2⟩
        obtain ⟨hb, ht⟩ := hdec'
        refine ⟨m, b :: x :: pre', post, hfold', ?_, ?_, ?_⟩
        · rw [ht]; rfl
        · intro f hf
          have hbm : calculateMasterScore b < calculateMasterScore m := by
            apply hpre
            rw [← hb]
            exact List.mem_cons_self _ _
          rcases List.mem_cons.mp hf with h | h
          · exact h ▸ hbm
          · rcases List.mem_cons.mp h with h2 | h2
            · exact h2 ▸ lt_of_le_of_lt (le_of_not_lt hx) hbm
            · exact hpre f (by rw [← hb]; exact List.mem_cons_of_mem _ h2)
        · intro f hf
          rcases List.mem_cons.mp hf with h | h
          · rw [h]
            exact hall b (List.mem_cons_self _ _)
          · rcases List.mem_cons.mp h with h2 | h2
            · exact h2 ▸ le_trans (le_of_not_lt hx)
                (hall b (List.mem_cons_self _ _))
            · exact hall f (List.mem_cons_of_mem _ h2)

theorem identifyMaster_char (cluster : List FrameMeta) (m : FrameMeta)
    (h : identifyMaster cluster = some m) :
    m ∈ cluster ∧
    (∀ f ∈ cluster, calculateMasterScore f ≤ calculateMasterScore m) ∧
    ∃ pre post, cluster = pre ++ m :: post ∧
      ∀ f ∈ pre, calculateMasterScore f < calculateMasterScore m := by
  rcases cluster with _ | ⟨x, t⟩
  · cases h
  · unfold identifyMaster at h
    have hstep0 : identifyMasterStep (none, -1) x
        = (some x, calculateMasterScore x) := by
      simp only [identifyMasterStep]
      rw [if_pos (by
        have := calculateMasterScore_nonneg x
        omega)]
    simp only [List.foldl_cons, hstep0] at h
    obtain ⟨m', pre, post, hfold, hdec, hpre, hall⟩ :=
      identifyMaster_fold_char t x
    rw [hfold] at h
    simp only at h
    have hm : m' = m := by
      simpa using h
    subst hm
    refine ⟨?_, ?_, pre, post, hdec, hpre⟩
    · rw [hdec]
      exact List.mem_append_right _ (List.mem_cons_self _ _)
    · intro f hf
      exact hall f hf

theorem identifyMaster_isSome (cluster : List FrameMeta)
    (h : cluster ≠ []) : (identifyMaster cluster).isSome = true := by
  rcases cluster with _ | ⟨x, t⟩
  · exact absurd rfl h
  · unfold identifyMaster
    have hstep0 : identifyMasterStep (none, -1) x
        = (some x, calculateMasterScore x) := by
      simp only [identifyMasterStep]
      rw [if_pos (by
        have := calculateMasterScore_nonneg x
        omega)]
    simp only [List.foldl_cons, hstep0]
    obtain ⟨m, pre, post, hfold, _, _, _⟩ := identifyMaster_fold_char t x
    rw [hfold]
    rfl

/-- Test fixture: slave frame with page_index 3 and one populated key field
(score 1). -/
def fLow : FrameMeta :=
  { runtime := (mkA4Frame ("low") 0 0).runtime,
    titleblock := { engineering_no := some (("1818" : String)),
                    page_index := some 3 } }

/-- Test fixture: master frame with page_index 1 and two populated key
fields (score 4). -/
def fHigh : FrameMeta :=
  { runtime := (mkA4Frame ("high") 210 0).runtime,
    titleblock := { internal_code := some (("1234567-JG001-001" : String)),
                    external_code := some (("JD1NHT11001B25C42SD" : String)),
                    page_index := some 1 } }

/-- Test fixture: slave frame with nothing populated (score 0). -/
def fSlave : FrameMeta :=
  { runtime := (mkA4Frame ("slave") 420 0).runtime }

/-- C5: the identified master maximizes the key-field count plus the
page_index-1 bonus, with ties resolved by encounter order (the returned
master is the first frame attaining the maximal score, and every earlier
frame scores strictly less); in the concrete 3-frame cluster the frame with
page_index 1 and two populated key fields (score 4) outranks the frame with
page_index 3 and one populated key field (score 1). -/
theorem C5_identifyMaster_max (cluster : List FrameMeta) (m : FrameMeta) :
    (identifyMaster cluster = some m →
      m ∈ cluster ∧
      (∀ f ∈ cluster, calculateMasterScore f ≤ calculateMasterScore m) ∧
      ∃ pre post, cluster = pre ++ m :: post ∧
        ∀ f ∈ pre, calculateMasterScore f < calculateMasterScore m) ∧
    identifyMaster [fLow, fHigh, fSlave] = some fHigh ∧
    calculateMasterScore fHigh = 4 ∧
    calculateMasterScore fLow = 1 ∧
    calculateMasterScore fSlave = 0 := by
  refine ⟨identifyMaster_char cluster m, by with_unfolding_all decide,
    by with_unfolding_all decide, by with_unfolding_all decide,
    by with_unfolding_all decide⟩

/-! ## Text extraction and field parsing
(src/backend/src/cad/titleblock_extractor.py)

Characters are Lean Char (Unicode code points, as in Python).  The models of
str.upper, str.strip and the regex classes \s and \d cover the ASCII range;
the source strings these parsers inspect (codes, digits, the Chinese label
characters) are unaffected by the difference. -/

/-- ASCII uppercase letter or digit: the regex class [A-Z0-9]. -/
def isClassAZ09 (c : Char) : Bool :=
  (decide ('A' ≤ c) && decide (c ≤ 'Z')) || c.isDigit

/-- ASCII whitespace, the model of the regex class \s and of str.strip. -/
def isPySpace (c : Char) : Bool :=
  decide (c = ' ') || decide (c = '\t') || decide (c = '\n') ||
  decide (c = '\r') || decide (c = '\x0b') || decide (c = '\x0c')

/-- str.strip(): drop whitespace from both ends. -/
def pyStrip (s : List Char) : List Char :=
  ((((s.dropWhile isPySpace).reverse).dropWhile isPySpace)).reverse

/-- One TEXT/MTEXT entity as seen by _extract_texts_in_roi: the plain text
and the insertion point. -/
structure TextEnt where
  text : List Char
  x : ℚ
  y : ℚ
deriving DecidableEq, Repr

/-- One gathered text record, the dict appended by _extract_texts_in_roi. -/
structure TextRec where
  text : List Char
  x : ℚ
  y : ℚ
deriving DecidableEq, Repr

/-- TitleblockExtractor._extract_texts_in_roi: keep the entities whose
insertion point lies inside the ROI, strip their text, and sort by
descending y (Python sort is stable, so records with equal y keep their
entity-stream order). -/
def extractTextsInRoi (ents : List TextEnt) (roi : BBox) : List TextRec :=
  let texts := (ents.filter (fun e =>
    decide (roi.xmin ≤ e.x) && decide (e.x ≤ roi.xmax) &&
    decide (roi.ymin ≤ e.y) && decide (e.y ≤ roi.ymax))).map
      (fun e => ⟨pyStrip e.text, e.x, e.y⟩)
  List.insertionSort (fun a b => b.y ≤ a.y) texts

/-! ### internal_code (TitleblockExtractor._parse_internal_code)

The pattern is re.match of raw
  [A-Z0-9] 7 times, a hyphen, [A-Z0-9] 5 times, optionally a hyphen and
  3 digits, then the dollar anchor
against text.upper().replace(" ", "").  The classes have fixed widths and
the characters that may follow each class are disjoint from it, so the
match is deterministic and needs no backtracking.  The Python dollar anchor
(no MULTILINE) accepts the end of the string or a single trailing
newline. -/

/-- Consume exactly n characters satisfying p, returning the rest. -/
def takeClass (p : Char → Bool) : ℕ → List Char → Option (List Char)
  | 0, s => some s
  | _ + 1, [] => none
  | n + 1, c :: cs => if p c then takeClass p n cs else none

/-- The Python dollar anchor without MULTILINE: end of string, or just
before one final newline. -/
def endDollar : List Char → Bool
  | [] => true
  | [c] => decide (c = '\n')
  | _ => false

/-- The optional (?:-\d{3})? group followed by the dollar anchor. -/
def matchTail3 (r3 : List Char) : Bool :=
  endDollar r3 ||
  (match r3 with
   | '-' :: r4 =>
     (match takeClass Char.isDigit 3 r4 with
      | some r5 => endDollar r5
      | none => false)
   | _ => false)

/-- The part of the internal-code pattern after the first seven characters:
a hyphen, five class characters, then the optional tail. -/
def matchAfter7 (r1 : List Char) : Bool :=
  match r1 with
  | '-' :: r2 =>
    (match takeClass isClassAZ09 5 r2 with
     | some r3 => matchTail3 r3
     | none => false)
  | _ => false

/-- The anchored internal-code regex match. -/
def matchInternalCode (s : List Char) : Bool :=
  match takeClass isClassAZ09 7 s with
  | some r1 => matchAfter7 r1
  | none => false

/-- text.upper().replace(" ", "") as applied by _parse_internal_code. -/
def normalizeInternal (s : List Char) : List Char :=
  (s.map Char.toUpper).filter (fun c => decide (c ≠ ' '))

/-- TitleblockExtractor._parse_internal_code: return the first gathered
text whose normalization matches the pattern. -/
def parseInternalCode : List TextRec → Option (List Char)
  | [] => none
  | t :: rest =>
    let s := normalizeInternal t.text
    if matchInternalCode s then some s else parseInternalCode rest

/-- The shape the spec sentence describes: a 7-character code, a hyphen, a
5-character code, and an optional hyphen plus 3-digit sequence — with
nothing after it. -/
def specInternalShape (s : List Char) : Prop :=
  ∃ a b, s = a ++ '-' :: b ∧ a.length = 7 ∧ (∀ c ∈ a, isClassAZ09 c = true) ∧
    ((b.length = 5 ∧ ∀ c ∈ b, isClassAZ09 c = true) ∨
     (∃ b5 d, b = b5 ++ '-' :: d ∧ b5.length = 5 ∧
       (∀ c ∈ b5, isClassAZ09 c = true) ∧ d.length = 3 ∧
       ∀ c ∈ d, c.isDigit = true))

/-! ### external_code (TitleblockExtractor._parse_external_code) -/

/-- The greedy optional dot \.? of the header regex. -/
def dropOptDot : List Char → List Char
  | [] => []
  | c :: r => if c = '.' then r else c :: r

/-- The NO\.? tail of the header regex, applied after the whitespace run. -/
def matchNoTail (r2 : List Char) : Option (List Char) :=
  match r2 with
  | n1 :: n2 :: r3 =>
    if (n1 = 'N' ∨ n1 = 'n') ∧ (n2 = 'O' ∨ n2 = 'o') then
      some (dropOptDot r3)
    else none
  | _ => none

/-- One attempt to match the header regex DOC\.?\s*NO\.? (case-insensitive)
at the start of the list; returns the rest after the match.  The optional
dots and the whitespace run are deterministic because a dot is neither
whitespace nor N. -/
def matchDocNoAt (s : List Char) : Option (List Char) :=
  match s with
  | c1 :: c2 :: c3 :: rest =>
    if (c1 = 'D' ∨ c1 = 'd') ∧ (c2 = 'O' ∨ c2 = 'o') ∧ (c3 = 'C' ∨ c3 = 'c') then
      matchNoTail ((dropOptDot rest).dropWhile isPySpace)
    else none
  | _ => none

theorem dropOptDot_length_le (r : List Char) :
    (dropOptDot r).length ≤ r.length := by
  cases r with
  | nil => exact le_refl _
  | cons c rr =>
    simp only [dropOptDot]
    split
    · exact Nat.le_succ _
    · exact le_refl _

theorem dropWhile_length_le (p : Char → Bool) (l : List Char) :
    (l.dropWhile p).length ≤ l.length := by
  induction l with
  | nil => exact le_refl _
  | cons c cs ih =>
    rw [List.dropWhile_cons]
    split
    · exact le_trans ih (Nat.le_succ _)
    · exact le_refl _

theorem matchNoTail_lt (r2 r : List Char) (h : matchNoTail r2 = some r) :
    r.length + 2 ≤ r2.length := by
  match r2 with
  | [] => cases h
  | [n1] => cases h
  | n1 :: n2 :: r3 =>
    simp only [matchNoTail] at h
    split at h
    · injection h with h'
      subst h'
      have := dropOptDot_length_le r3
      simp only [List.length_cons]
      omega
    · cases h

theorem matchDocNoAt_lt (s r : List Char) (h : matchDocNoAt s = some r) :
    r.length < s.length := by
  match s with
  | [] => cases h
  | [c1] => cases h
  | [c1, c2] => cases h
  | c1 :: c2 :: c3 :: rest =>
    simp only [matchDocNoAt] at h
    split at h
    · have h2 := matchNoTail_lt _ _ h
      have h3 : ((dropOptDot rest).dropWhile isPySpace).length ≤ rest.length :=
        le_trans (dropWhile_length_le _ _) (dropOptDot_length_le _)
      simp only [List.length_cons]
      omega
    · cases h

/-- The re.sub loop removing every non-overlapping header occurrence, as a
left-to-right scan.  The fuel argument only bounds the recursion depth:
each successful match consumes at least five characters (matchDocNoAt_lt),
so fuel equal to the input length is never exhausted
(removeDocNoF_fuel_congr). -/
def removeDocNoF : ℕ → List Char → List Char
  | _, [] => []
  | 0, s => s
  | fuel + 1, c :: cs =>
    match matchDocNoAt (c :: cs) with
    | some rest => removeDocNoF fuel rest
    | none => c :: removeDocNoF fuel cs

/-- re.sub(r"DOC\.?\s*NO\.?", "", text, flags=re.IGNORECASE). -/
def removeDocNo (s : List Char) : List Char := removeDocNoF s.length s

theorem removeDocNoF_fuel_congr :
    ∀ (f1 : ℕ) (s : List Char) (f2 : ℕ), s.length ≤ f1 → s.length ≤ f2 →
      removeDocNoF f1 s = removeDocNoF f2 s := by
  intro f1
  induction f1 with
  | zero =>
    intro s f2 h1 _
    match s with
    | [] =>
      cases f2 <;> rfl
    | c :: cs =>
      simp at h1
  | succ f ih =>
    intro s f2 h1 h2
    match s with
    | [] => cases f2 <;> rfl
    | c :: cs =>
      match f2 with
      | 0 => simp at h2
      | f2' + 1 =>
        simp only [removeDocNoF]
        rcases hm : matchDocNoAt (c :: cs) with _ | rest
        · simp only [List.length_cons] at h1 h2
          show c :: removeDocNoF f cs = c :: removeDocNoF f2' cs
          rw [ih cs f2' (by omega) (by omega)]
        · have hlt := matchDocNoAt_lt _ _ hm
          simp only [List.length_cons] at hlt h1 h2
          show removeDocNoF f rest = removeDocNoF f2' rest
          exact ih rest f2' (by omega) (by omega)

/-- TitleblockExtractor._parse_external_code: join all gathered texts in
order, remove the DOC.NO header tokens, uppercase, keep [A-Z0-9] only, and
accept exactly 19 characters. -/
def parseExternalCode (texts : List TextRec) : Option (List Char) :=
  let all := (texts.map (·.text)).flatten
  let all1 := removeDocNo all
  let all2 := (all1.map Char.toUpper).filter isClassAZ09
  if all2.length = 19 then some all2 else none

/-! ### page_info (TitleblockExtractor._parse_page_info)

The three regexes
  共\s*(\d+)\s*张.*?第\s*([0-9Xx]+)\s*张
  共\s*(\d+)\s*张
  第\s*([0-9Xx]+)\s*张
are matched deterministically: the greedy runs \d+, [0-9Xx]+ and \s* are
each followed by a character class disjoint from them, and the lazy gap .*?
is the scan to the first position where the index sub-pattern matches (a dot
never matches a newline). -/

/-- The class [0-9Xx]. -/
def isTokChar (c : Char) : Bool := c.isDigit || decide (c = 'X') || decide (c = 'x')

/-- The part of 第\s*([0-9Xx]+)\s*张 after the literal 第: the whitespace
run, the greedy token, more whitespace, then 张. -/
def matchIdxAfter (rest : List Char) : Option (List Char) :=
  if (rest.dropWhile isPySpace).takeWhile isTokChar = [] then none
  else
    match ((rest.dropWhile isPySpace).dropWhile isTokChar).dropWhile isPySpace with
    | '张' :: _ => some ((rest.dropWhile isPySpace).takeWhile isTokChar)
    | _ => none

/-- Match 第\s*([0-9Xx]+)\s*张 at the start; return the captured token. -/
def matchIdxAt (s : List Char) : Option (List Char) :=
  match s with
  | '第' :: rest => matchIdxAfter rest
  | _ => none

/-- The part of 共\s*(\d+)\s*张 after the literal 共. -/
def matchTotalAfter (rest : List Char) : Option (List Char × List Char) :=
  if (rest.dropWhile isPySpace).takeWhile Char.isDigit = [] then none
  else
    match ((rest.dropWhile isPySpace).dropWhile Char.isDigit).dropWhile isPySpace with
    | '张' :: r3 => some ((rest.dropWhile isPySpace).takeWhile Char.isDigit, r3)
    | _ => none

/-- Match 共\s*(\d+)\s*张 at the start; return the captured digits and the
rest after 张. -/
def matchTotalAt (s : List Char) : Option (List Char × List Char) :=
  match s with
  | '共' :: rest => matchTotalAfter rest
  | _ => none

/-- The lazy gap .*? of the full pattern followed by the index sub-pattern:
scan forward to the first index match, never crossing a newline. -/
def scanLazy : List Char → Option (List Char)
  | [] => none
  | c :: rest =>
    match matchIdxAt (c :: rest) with
    | some tok => some tok
    | none => if c = '\n' then none else scanLazy rest

/-- Match the full pattern 共\s*(\d+)\s*张.*?第\s*([0-9Xx]+)\s*张 at the
start; return both captures. -/
def matchFullAt (s : List Char) : Option (List Char × List Char) :=
  match matchTotalAt s with
  | some (ds, r3) =>
    match scanLazy r3 with
    | some tok => some (ds, tok)
    | none => none
  | none => none

/-- re.search of the full pattern: leftmost matching start position. -/
def searchFull : List Char → Option (List Char × List Char)
  | [] => none
  | c :: rest =>
    match matchFullAt (c :: rest) with
    | some r => some r
    | none => searchFull rest

/-- re.search of 共\s*(\d+)\s*张 alone. -/
def searchTotal : List Char → Option (List Char)
  | [] => none
  | c :: rest =>
    match matchTotalAt (c :: rest) with
    | some (ds, _) => some ds
    | none => searchTotal rest

/-- re.search of 第\s*([0-9Xx]+)\s*张 alone. -/
def searchIdx : List Char → Option (List Char)
  | [] => none
  | c :: rest =>
    match matchIdxAt (c :: rest) with
    | some tok => some tok
    | none => searchIdx rest

/-- int() on the digit string captured by \d+ (leading zeros allowed). -/
def natOfDigits (ds : List Char) : ℕ :=
  ds.foldl (fun a c => 10 * a + (c.toNat - 48)) 0

/-- The page-index value of a captured [0-9Xx]+ token: X (either case)
denotes 1, otherwise int().  int() raising ValueError on a mixed token such
as 1X (impossible in the inputs any claim speaks about) is modelled as
none. -/
def idxVal (tok : List Char) : Option ℤ :=
  if tok = ['X'] ∨ tok = ['x'] then some 1
  else if tok ≠ [] ∧ ∀ c ∈ tok, c.isDigit = true then
    some (natOfDigits tok : ℤ)
  else none

/-- " ".join of the gathered text contents. -/
def joinSpace : List (List Char) → List Char
  | [] => []
  | [x] => x
  | x :: rest => x ++ ' ' :: joinSpace rest

/-- TitleblockExtractor._parse_page_info on the joined ROI text: try the
full pattern first, then the two separate patterns. -/
def parsePageInfoChars (all : List Char) : Option ℤ × Option ℤ :=
  match searchFull all with
  | some (ds, tok) => (some (natOfDigits ds : ℤ), idxVal tok)
  | none =>
    let t := searchTotal all
    let i := searchIdx all
    (t.map (fun ds => (natOfDigits ds : ℤ)), i.bind idxVal)

/-- TitleblockExtractor._parse_page_info. -/
def parsePageInfo (texts : List TextRec) : Option ℤ × Option ℤ :=
  parsePageInfoChars (joinSpace (texts.map (·.text)))

/-! ### C8: the internal-code pattern -/

theorem takeClass_append (p : Char → Bool) :
    ∀ (a r : List Char), (∀ c ∈ a, p c = true) →
      takeClass p a.length (a ++ r) = some r := by
  intro a
  induction a with
  | nil =>
    intro r _
    rfl
  | cons c cs ih =>
    intro r hall
    simp only [List.length_cons, List.cons_append, takeClass]
    rw [if_pos (hall c (List.mem_cons_self _ _))]
    exact ih r (fun d hd => hall d (List.mem_cons_of_mem _ hd))

theorem takeClass_some (p : Char → Bool) :
    ∀ (n : ℕ) (s r : List Char), takeClass p n s = some r →
      ∃ a, s = a ++ r ∧ a.length = n ∧ ∀ c ∈ a, p c = true := by
  intro n
  induction n with
  | zero =>
    intro s r h
    simp only [takeClass, Option.some.injEq] at h
    exact ⟨[], by rw [h]; rfl, rfl, by intro c hc; cases hc⟩
  | succ n ih =>
    intro s r h
    match s with
    | [] => cases h
    | c :: cs =>
      simp only [takeClass] at h
      split at h
      · obtain ⟨a, hs, hlen, hall⟩ := ih cs r h
        refine ⟨c :: a, by rw [List.cons_append, ← hs], by simp [hlen], ?_⟩
        intro d hd
        rcases List.mem_cons.mp hd with hd | hd
        · subst hd
          assumption
        · exact hall d hd
      · cases h

theorem endDollar_iff (r : List Char) :
    endDollar r = true ↔ r = [] ∨ r = ['\n'] := by
  match r with
  | [] => simp [endDollar]
  | [c] => simp [endDollar]
  | a :: b :: t => simp [endDollar]

theorem matchInternalCode_of_take7 (s r1 : List Char)
    (h : takeClass isClassAZ09 7 s = some r1) :
    matchInternalCode s = matchAfter7 r1 := by
  unfold matchInternalCode
  rw [h]

theorem matchInternalCode_of_take7_none (s : List Char)
    (h : takeClass isClassAZ09 7 s = none) :
    matchInternalCode s = false := by
  unfold matchInternalCode
  rw [h]

theorem matchAfter7_of_take5 (r2 r3 : List Char)
    (h : takeClass isClassAZ09 5 r2 = some r3) :
    matchAfter7 ('-' :: r2) = matchTail3 r3 := by
  show (match takeClass isClassAZ09 5 r2 with
        | some r3 => matchTail3 r3
        | none => false) = matchTail3 r3
  rw [h]

theorem matchAfter7_true (r1 : List Char) (h : matchAfter7 r1 = true) :
    ∃ r2 r3, r1 = '-' :: r2 ∧ takeClass isClassAZ09 5 r2 = some r3 ∧
      matchTail3 r3 = true := by
  unfold matchAfter7 at h
  split at h
  · rcases h5 : takeClass isClassAZ09 5 _ with _ | r3 <;> rw [h5] at h
    · exact Bool.noConfusion h
    · exact ⟨_, r3, rfl, h5, h⟩
  · exact Bool.noConfusion h

theorem matchTail3_true (r3 : List Char) (h : matchTail3 r3 = true) :
    endDollar r3 = true ∨
    ∃ r4 r5, r3 = '-' :: r4 ∧ takeClass Char.isDigit 3 r4 = some r5 ∧
      endDollar r5 = true := by
  unfold matchTail3 at h
  rcases Bool.or_eq_true _ _ |>.mp h with hend | htail
  · exact Or.inl hend
  · right
    split at htail
    · rcases hd : takeClass Char.isDigit 3 _ with _ | r5 <;> rw [hd] at htail
      · exact Bool.noConfusion htail
      · exact ⟨_, r5, rfl, hd, htail⟩
    · exact Bool.noConfusion htail

theorem matchTail3_of_end (r3 : List Char) (h : endDollar r3 = true) :
    matchTail3 r3 = true := by
  unfold matchTail3
  rw [h]
  rfl

theorem matchTail3_of_digits (r4 r5 : List Char)
    (hd : takeClass Char.isDigit 3 r4 = some r5) (he : endDollar r5 = true) :
    matchTail3 ('-' :: r4) = true := by
  unfold matchTail3
  simp only [Bool.or_eq_true]
  right
  show (match takeClass Char.isDigit 3 r4 with
        | some r5 => endDollar r5
        | none => false) = true
  rw [hd]
  exact he

theorem matchInternalCode_iff (s : List Char) :
    matchInternalCode s = true ↔
      specInternalShape s ∨ ∃ s0, s = s0 ++ ['\n'] ∧ specInternalShape s0 := by
  constructor
  · intro h
    rcases h7 : takeClass isClassAZ09 7 s with _ | r1
    · rw [matchInternalCode_of_take7_none s h7] at h
      exact Bool.noConfusion h
    · rw [matchInternalCode_of_take7 s r1 h7] at h
      obtain ⟨a, hs, ha7, hacls⟩ := takeClass_some _ _ _ _ h7
      obtain ⟨r2, r3, hr1, h5, htail⟩ := matchAfter7_true r1 h
      subst hr1
      obtain ⟨b5, hr2, hb5, hbcls⟩ := takeClass_some _ _ _ _ h5
      rcases matchTail3_true r3 htail with hend | ⟨r4, r5, hr3, hd, hend⟩
      · rcases (endDollar_iff r3).mp hend with h3 | h3
        · subst h3
          left
          refine ⟨a, b5, ?_, ha7, hacls, Or.inl ⟨hb5, hbcls⟩⟩
          rw [hs, hr2, List.append_nil]
        · subst h3
          right
          refine ⟨a ++ '-' :: b5, ?_, a, b5, rfl, ha7, hacls,
            Or.inl ⟨hb5, hbcls⟩⟩
          rw [hs, hr2]
          simp
      · subst hr3
        obtain ⟨d, hr4, hd3, hdcls⟩ := takeClass_some _ _ _ _ hd
        rcases (endDollar_iff r5).mp hend with h5e | h5e
        · subst h5e
          left
          refine ⟨a, b5 ++ '-' :: d, ?_, ha7, hacls,
            Or.inr ⟨b5, d, rfl, hb5, hbcls, hd3, hdcls⟩⟩
          rw [hs, hr2, hr4, List.append_nil]
        · subst h5e
          right
          refine ⟨a ++ '-' :: (b5 ++ '-' :: d), ?_, a,
            b5 ++ '-' :: d, rfl, ha7, hacls,
            Or.inr ⟨b5, d, rfl, hb5, hbcls, hd3, hdcls⟩⟩
          rw [hs, hr2, hr4]
          simp
  · intro h
    have key : ∀ (s1 : List Char) (tail : List Char),
        specInternalShape s1 → endDollar tail = true →
        matchInternalCode (s1 ++ tail) = true := by
      intro s1 tail hshape htail
      obtain ⟨a, b, hs1, ha7, hacls, hbr⟩ := hshape
      rcases hbr with ⟨hb5, hbcls⟩ | ⟨b5, d, hbe, hb5, hbcls, hd3, hdcls⟩
      · have h7 : takeClass isClassAZ09 7 (s1 ++ tail)
            = some ('-' :: (b ++ tail)) := by
          rw [hs1]
          have h' := takeClass_append isClassAZ09 a ('-' :: (b ++ tail)) hacls
          rw [ha7] at h'
          rw [← h']
          simp
        rw [matchInternalCode_of_take7 _ _ h7]
        have h5 : takeClass isClassAZ09 5 (b ++ tail) = some tail := by
          have h' := takeClass_append isClassAZ09 b tail hbcls
          rw [hb5] at h'
          exact h'
        rw [matchAfter7_of_take5 _ _ h5]
        exact matchTail3_of_end _ htail
      · have h7 : takeClass isClassAZ09 7 (s1 ++ tail)
            = some ('-' :: (b5 ++ '-' :: (d ++ tail))) := by
          rw [hs1, hbe]
          have h' := takeClass_append isClassAZ09 a
            ('-' :: (b5 ++ '-' :: (d ++ tail))) hacls
          rw [ha7] at h'
          rw [← h']
          simp
        rw [matchInternalCode_of_take7 _ _ h7]
        have h5 : takeClass isClassAZ09 5 (b5 ++ '-' :: (d ++ tail))
            = some ('-' :: (d ++ tail)) := by
          have h' := takeClass_append isClassAZ09 b5 ('-' :: (d ++ tail)) hbcls
          rw [hb5] at h'
          exact h'
        rw [matchAfter7_of_take5 _ _ h5]
        have hd' : takeClass Char.isDigit 3 (d ++ tail) = some tail := by
          have h' := takeClass_append Char.isDigit d tail hdcls
          rw [hd3] at h'
          exact h'
        exact matchTail3_of_digits _ _ hd' htail
    rcases h with hshape | ⟨s0, hs0, hshape⟩
    · have h' := key s [] hshape rfl
      rw [List.append_nil] at h'
      exact h'
    · rw [hs0]
      exact key s0 ['\n'] hshape rfl

theorem parseInternalCode_cons (t : TextRec) (rest : List TextRec) :
    parseInternalCode (t :: rest) =
      if matchInternalCode (normalizeInternal t.text) = true
      then some (normalizeInternal t.text) else parseInternalCode rest := rfl

theorem parseInternalCode_some (texts : List TextRec) (r : List Char)
    (h : parseInternalCode texts = some r) :
    ∃ t ∈ texts, r = normalizeInternal t.text ∧ matchInternalCode r = true := by
  induction texts with
  | nil => cases h
  | cons t rest ih =>
    rw [parseInternalCode_cons] at h
    by_cases hm : matchInternalCode (normalizeInternal t.text) = true
    · rw [if_pos hm] at h
      injection h with h'
      subst h'
      exact ⟨t, List.mem_cons_self _ _, rfl, hm⟩
    · rw [if_neg hm] at h
      obtain ⟨t', ht', hr, hmm⟩ := ih h
      exact ⟨t', List.mem_cons_of_mem _ ht', hr, hmm⟩

theorem parseInternalCode_none (texts : List TextRec) :
    parseInternalCode texts = none ↔
      ∀ t ∈ texts, matchInternalCode (normalizeInternal t.text) = false := by
  induction texts with
  | nil =>
    simp [parseInternalCode]
  | cons t rest ih =>
    rw [parseInternalCode_cons]
    by_cases hm : matchInternalCode (normalizeInternal t.text) = true
    · rw [if_pos hm]
      constructor
      · intro h
        cases h
      · intro h
        have := h t (List.mem_cons_self _ _)
        rw [hm] at this
        cases this
    · rw [if_neg hm]
      constructor
      · intro h
        intro t' ht'
        rcases List.mem_cons.mp ht' with h2 | h2
        · subst h2
          exact Bool.not_eq_true _ |>.mp hm
        · exact ih.mp h t' h2
      · intro h
        exact ih.mpr (fun t' ht' => h t' (List.mem_cons_of_mem _ ht'))

/-- C8 counterexample: the parser accepts a normalized text that carries a
trailing newline, which does not match the shape the claim describes
(Python re, dollar without MULTILINE, also matches just before one final
newline). -/
theorem C8_counterexample :
    parseInternalCode [⟨("1234567-JG001\n").data, 0, 0⟩] =
      some (("1234567-JG001\n").data) ∧
    ¬ specInternalShape (("1234567-JG001\n").data) := by
  constructor
  · decide
  · intro hshape
    obtain ⟨a, b, heq, ha7, _, hbr⟩ := hshape
    have hs : (("1234567-JG001\n").data).length = 14 := by decide
    have hlen := congrArg List.length heq
    rw [hs] at hlen
    simp only [List.length_append, List.length_cons] at hlen
    rcases hbr with ⟨hb5, _⟩ | ⟨b5, d, hbe, hb5, _, hd3, _⟩
    · omega
    · have hlen2 := congrArg List.length hbe
      simp only [List.length_append, List.length_cons] at hlen2
      omega

/-- C8 (amended): the internal-code parser accepts exactly the normalized
strings matching a 7-character class code, a hyphen, a 5-character class
code and an optional hyphen plus 3 digits — either exactly, or followed by
one trailing newline (the Python dollar anchor); the returned value is the
normalization of the first matching gathered text, and when nothing matches
the field stays empty.  The three spec examples hold. -/
theorem C8_internalCode_amended :
    (∀ s : List Char, matchInternalCode s = true ↔
      specInternalShape s ∨ ∃ s0, s = s0 ++ ['\n'] ∧ specInternalShape s0) ∧
    (∀ (texts : List TextRec) (r : List Char), parseInternalCode texts = some r →
      ∃ t ∈ texts, r = normalizeInternal t.text ∧ matchInternalCode r = true) ∧
    (∀ texts : List TextRec, parseInternalCode texts = none ↔
      ∀ t ∈ texts, matchInternalCode (normalizeInternal t.text) = false) ∧
    matchInternalCode (("1234567-JG001-001").data) = true ∧
    matchInternalCode (("1234567-JG001").data) = true ∧
    matchInternalCode (("abc").data) = false :=
  ⟨matchInternalCode_iff, parseInternalCode_some, parseInternalCode_none,
    by decide, by decide, by decide⟩

/-! ### C2: the external-code reconstruction -/

theorem pyStrip_noop (s : List Char) (h : ∀ c ∈ s, isPySpace c = false) :
    pyStrip s = s := by
  have drop1 : ∀ l : List Char, (∀ c ∈ l, isPySpace c = false) →
      l.dropWhile isPySpace = l := by
    intro l hl
    cases l with
    | nil => rfl
    | cons c cs =>
      rw [List.dropWhile_cons, if_neg]
      rw [hl c (List.mem_cons_self _ _)]
      simp
  unfold pyStrip
  rw [drop1 s h, drop1 s.reverse (fun c hc => h c (List.mem_reverse.mp hc)),
    List.reverse_reverse]

theorem insertionSort_yconst (y0 : ℚ) :
    ∀ l : List TextRec, (∀ t ∈ l, t.y = y0) →
      List.insertionSort (fun a b => b.y ≤ a.y) l = l := by
  intro l
  induction l with
  | nil => intro _; rfl
  | cons t rest ih =>
    intro h
    have hrest : ∀ u ∈ rest, u.y = y0 :=
      fun u hu => h u (List.mem_cons_of_mem _ hu)
    show List.orderedInsert _ t (List.insertionSort _ rest) = t :: rest
    rw [ih hrest]
    cases rest with
    | nil => rfl
    | cons u us =>
      show (if u.y ≤ t.y then t :: u :: us
            else u :: List.orderedInsert _ t us) = t :: u :: us
      rw [if_pos (by
        rw [h t (List.mem_cons_self _ _),
          hrest u (List.mem_cons_self _ _)])]

theorem extractTextsInRoi_const_y (ents : List TextEnt) (roi : BBox) (y0 : ℚ)
    (hin : ∀ e ∈ ents, roi.xmin ≤ e.x ∧ e.x ≤ roi.xmax ∧
      roi.ymin ≤ e.y ∧ e.y ≤ roi.ymax)
    (hy : ∀ e ∈ ents, e.y = y0) :
    extractTextsInRoi ents roi =
      ents.map (fun e => ⟨pyStrip e.text, e.x, e.y⟩) := by
  unfold extractTextsInRoi
  have hfilter : ents.filter (fun e =>
      decide (roi.xmin ≤ e.x) && decide (e.x ≤ roi.xmax) &&
      decide (roi.ymin ≤ e.y) && decide (e.y ≤ roi.ymax)) = ents := by
    rw [List.filter_eq_self]
    intro e he
    obtain ⟨h1, h2, h3, h4⟩ := hin e he
    simp [h1, h2, h3, h4]
  rw [hfilter]
  exact insertionSort_yconst y0 _ (by
    intro t ht
    rcases List.mem_map.mp ht with ⟨e, he, rfl⟩
    exact hy e he)

/-- C2 (amended): the external-code parser concatenates the gathered
fragments in extraction order — descending y, ties kept in entity-stream
order — rather than sorting by x; the header token is removed textually;
the result is uppercased, restricted to [A-Z0-9], and valid exactly when 19
characters remain.  For fragments at a common height whose characters are
non-whitespace and alphanumeric after uppercasing, with no header token in
the concatenation, the parser returns the stream-order concatenation
uppercased (so the x-sorted reconstruction is obtained only when the stream
order already is the x order). -/
theorem C2_externalCode_amended (ents : List TextEnt) (roi : BBox) (y0 : ℚ)
    (hin : ∀ e ∈ ents, roi.xmin ≤ e.x ∧ e.x ≤ roi.xmax ∧
      roi.ymin ≤ e.y ∧ e.y ≤ roi.ymax)
    (hy : ∀ e ∈ ents, e.y = y0)
    (hchar : ∀ e ∈ ents, ∀ c ∈ e.text,
      isClassAZ09 (Char.toUpper c) = true ∧ isPySpace c = false)
    (hnohdr : removeDocNo ((ents.map (·.text)).flatten)
      = (ents.map (·.text)).flatten) :
    parseExternalCode (extractTextsInRoi ents roi) =
      (if ((ents.map (·.text)).flatten).length = 19
       then some (((ents.map (·.text)).flatten).map Char.toUpper)
       else none) := by
  rw [extractTextsInRoi_const_y ents roi y0 hin hy]
  have hdef : ∀ texts : List TextRec, parseExternalCode texts =
      (if (((removeDocNo ((texts.map (·.text)).flatten)).map
          Char.toUpper).filter isClassAZ09).length = 19
       then some (((removeDocNo ((texts.map (·.text)).flatten)).map
          Char.toUpper).filter isClassAZ09)
       else none) := fun _ => rfl
  rw [hdef]
  have htexts : (ents.map (fun e => (⟨pyStrip e.text, e.x, e.y⟩ : TextRec))).map
      (·.text) = ents.map (·.text) := by
    rw [List.map_map]
    apply List.map_congr_left
    intro e he
    exact pyStrip_noop _ (fun c hc => (hchar e he c hc).2)
  rw [htexts, hnohdr]
  have hkeep : (((ents.map (·.text)).flatten).map Char.toUpper).filter
      isClassAZ09 = ((ents.map (·.text)).flatten).map Char.toUpper := by
    rw [List.filter_eq_self]
    intro c hc
    rcases List.mem_map.mp hc with ⟨c0, hc0, rfl⟩
    rcases List.mem_flatten.mp hc0 with ⟨l, hl, hcl⟩
    rcases List.mem_map.mp hl with ⟨e, he, rfl⟩
    exact (hchar e he c0 hcl).1
  rw [hkeep, List.length_map]

/-- C2 fixture: 19 single-character fragments at a common height, in
ascending x order. -/
def entsFwd : List TextEnt :=
  [⟨['A'], 0, 0⟩, ⟨['B'], 1, 0⟩, ⟨['E'], 2, 0⟩, ⟨['F'], 3, 0⟩,
   ⟨['G'], 4, 0⟩, ⟨['H'], 5, 0⟩, ⟨['J'], 6, 0⟩, ⟨['K'], 7, 0⟩,
   ⟨['L'], 8, 0⟩, ⟨['M'], 9, 0⟩, ⟨['P'], 10, 0⟩, ⟨['Q'], 11, 0⟩,
   ⟨['R'], 12, 0⟩, ⟨['S'], 13, 0⟩, ⟨['T'], 14, 0⟩, ⟨['U'], 15, 0⟩,
   ⟨['V'], 16, 0⟩, ⟨['W'], 17, 0⟩, ⟨['X'], 18, 0⟩]

/-- C2 fixture: the same 19 fragments inserted in the opposite stream
order. -/
def entsRev : List TextEnt := entsFwd.reverse

/-- C2 fixture: an ROI containing all the fragments. -/
def roiC2 : BBox := ⟨0, 0, 100, 100⟩

/-- C2 counterexample: the same 19 single-character fragments, at the same
positions, inserted in two different stream orders, reconstruct to two
different 19-character strings (the parser does not sort fragments by
x-position), contradicting the claim that the reconstruction is independent
of insertion order. -/
theorem C2_counterexample :
    entsRev = entsFwd.reverse ∧
    parseExternalCode (extractTextsInRoi entsFwd roiC2) =
      some (("ABEFGHJKLMPQRSTUVWX").data) ∧
    parseExternalCode (extractTextsInRoi entsRev roiC2) =
      some (("XWVUTSRQPMLKJHGFEBA").data) ∧
    parseExternalCode (extractTextsInRoi entsFwd roiC2) ≠
      parseExternalCode (extractTextsInRoi entsRev roiC2) := by
  refine ⟨rfl, ?_, ?_, ?_⟩ <;> with_unfolding_all decide

/-! ### C6: page_info with two bare tokens -/

theorem matchTotalAt_not_gong (c : Char) (rest : List Char) (h : c ≠ '共') :
    matchTotalAt (c :: rest) = none := by
  unfold matchTotalAt
  split
  · rename_i rest' heq
    injection heq with h1 _
    exact absurd h1 h
  · rfl

theorem matchIdxAt_not_di (c : Char) (rest : List Char) (h : c ≠ '第') :
    matchIdxAt (c :: rest) = none := by
  unfold matchIdxAt
  split
  · rename_i rest' heq
    injection heq with h1 _
    exact absurd h1 h
  · rfl

theorem matchFullAt_not_gong (c : Char) (rest : List Char) (h : c ≠ '共') :
    matchFullAt (c :: rest) = none := by
  unfold matchFullAt
  rw [matchTotalAt_not_gong c rest h]

theorem searchTotal_none (s : List Char) (h : '共' ∉ s) :
    searchTotal s = none := by
  induction s with
  | nil => rfl
  | cons c rest ih =>
    unfold searchTotal
    rw [matchTotalAt_not_gong c rest (fun he => h (he ▸ List.mem_cons_self _ _))]
    exact ih (fun hm => h (List.mem_cons_of_mem _ hm))

theorem searchIdx_none (s : List Char) (h : '第' ∉ s) :
    searchIdx s = none := by
  induction s with
  | nil => rfl
  | cons c rest ih =>
    unfold searchIdx
    rw [matchIdxAt_not_di c rest (fun he => h (he ▸ List.mem_cons_self _ _))]
    exact ih (fun hm => h (List.mem_cons_of_mem _ hm))

theorem searchFull_none (s : List Char) (h : '共' ∉ s) :
    searchFull s = none := by
  induction s with
  | nil => rfl
  | cons c rest ih =>
    unfold searchFull
    rw [matchFullAt_not_gong c rest (fun he => h (he ▸ List.mem_cons_self _ _))]
    exact ih (fun hm => h (List.mem_cons_of_mem _ hm))

/-- C6 (amended): when the gathered ROI text contains no Chinese label
character at all (no 共 and no 第), the page_info parser returns
(None, None) — there is no fallback that reads bare alphanumeric tokens. -/
theorem C6_pageInfo_amended (texts : List TextRec)
    (h1 : '共' ∉ joinSpace (texts.map (·.text)))
    (h2 : '第' ∉ joinSpace (texts.map (·.text))) :
    parsePageInfo texts = (none, none) := by
  unfold parsePageInfo parsePageInfoChars
  rw [searchFull_none _ h1, searchTotal_none _ h1, searchIdx_none _ h2]
  rfl

/-- Python str.isalnum restricted to ASCII letters and digits. -/
def pyIsAlnum (c : Char) : Bool := c.isAlpha || c.isDigit

/-- Modelled from the spec: "if the phrase is split into two independent
small tokens (no literal Chinese label text), take the two shortest alnum
tokens in the ROI sorted by x-position as (total, index)".  This behavior
exists nowhere in the source; it is stated here only to exhibit the
divergence. -/
def specSplitTokenParse (texts : List TextRec) : Option ℤ × Option ℤ :=
  let toks := texts.filter
    (fun t => decide (t.text ≠ []) && t.text.all pyIsAlnum)
  let shortest :=
    (List.insertionSort (fun a b => a.text.length ≤ b.text.length) toks).take 2
  let byx := List.insertionSort (fun a b => a.x ≤ b.x) shortest
  match byx with
  | [t1, t2] =>
    ((if t1.text.all Char.isDigit then some (natOfDigits t1.text : ℤ) else none),
     (if t2.text.all Char.isDigit then some (natOfDigits t2.text : ℤ) else none))
  | _ => (none, none)

/-- C6 fixture: the page phrase split into the two bare tokens 20 and 1. -/
def textsC6 : List TextRec := [⟨("20").data, 0, 0⟩, ⟨("1").data, 5, 0⟩]

/-- C6 counterexample: on two bare tokens with no Chinese label text the
parser returns (None, None), not the (total, index) = (20, 1) that the
claimed shortest-token fallback would produce. -/
theorem C6_counterexample :
    parsePageInfo textsC6 = (none, none) ∧
    specSplitTokenParse textsC6 = (some 20, some 1) ∧
    parsePageInfo textsC6 ≠ specSplitTokenParse textsC6 := by
  refine ⟨?_, ?_, ?_⟩ <;> with_unfolding_all decide

/-! ### C7: the full 共N张第M张 phrase -/

theorem not_space_of_ne (c : Char) (h1 : c ≠ ' ') (h2 : c ≠ '\t')
    (h3 : c ≠ '\n') (h4 : c ≠ '\r') (h5 : c ≠ '\x0b') (h6 : c ≠ '\x0c') :
    isPySpace c = false := by
  unfold isPySpace
  simp [h1, h2, h3, h4, h5, h6]

theorem isDigit_not_space (c : Char) (h : c.isDigit = true) :
    isPySpace c = false := by
  apply not_space_of_ne <;> (intro he; subst he; exact absurd h (by decide))

theorem isTokChar_not_space (c : Char) (h : isTokChar c = true) :
    isPySpace c = false := by
  apply not_space_of_ne <;> (intro he; subst he; exact absurd h (by decide))

theorem space_cases (c : Char) (h : isPySpace c = true) :
    c = ' ' ∨ c = '\t' ∨ c = '\n' ∨ c = '\r' ∨ c = '\x0b' ∨ c = '\x0c' := by
  unfold isPySpace at h
  simp only [Bool.or_eq_true, decide_eq_true_eq] at h
  tauto

theorem space_not_digit (c : Char) (h : isPySpace c = true) :
    c.isDigit = false := by
  rcases space_cases c h with h | h | h | h | h | h <;> subst h <;> decide

theorem space_not_tok (c : Char) (h : isPySpace c = true) :
    isTokChar c = false := by
  rcases space_cases c h with h | h | h | h | h | h <;> subst h <;> decide

/-- The first character of the list, when present, fails p. -/
def headNotP (p : Char → Bool) : List Char → Prop
  | [] => True
  | c :: _ => p c = false

theorem dropWhile_headNot (p : Char → Bool) (l : List Char)
    (h : headNotP p l) : l.dropWhile p = l := by
  cases l with
  | nil => rfl
  | cons c cs =>
    rw [List.dropWhile_cons, if_neg]
    rw [h]
    simp

theorem dropWhile_ws_append (ws l : List Char)
    (h : ∀ c ∈ ws, isPySpace c = true) :
    (ws ++ l).dropWhile isPySpace = l.dropWhile isPySpace := by
  induction ws with
  | nil => rfl
  | cons c cs ih =>
    rw [List.cons_append, List.dropWhile_cons,
      if_pos (by rw [h c (List.mem_cons_self _ _)])]
    exact ih (fun d hd => h d (List.mem_cons_of_mem _ hd))

theorem span_exact (p : Char → Bool) :
    ∀ (a r : List Char), (∀ c ∈ a, p c = true) → headNotP p r →
      (a ++ r).takeWhile p = a ∧ (a ++ r).dropWhile p = r := by
  intro a
  induction a with
  | nil =>
    intro r _ hr
    cases r with
    | nil => exact ⟨rfl, rfl⟩
    | cons c cs =>
      constructor
      · rw [List.nil_append, List.takeWhile_cons, if_neg]
        rw [hr]
        simp
      · rw [List.nil_append, List.dropWhile_cons, if_neg]
        rw [hr]
        simp
  | cons c cs ih =>
    intro r ha hr
    obtain ⟨h1, h2⟩ := ih r (fun d hd => ha d (List.mem_cons_of_mem _ hd)) hr
    constructor
    · rw [List.cons_append, List.takeWhile_cons,
        if_pos (by rw [ha c (List.mem_cons_self _ _)]), h1]
    · rw [List.cons_append, List.dropWhile_cons,
        if_pos (by rw [ha c (List.mem_cons_self _ _)]), h2]

theorem headNot_digit_ws (ws2 : List Char) (k : Char) (tail : List Char)
    (hws2 : ∀ c ∈ ws2, isPySpace c = true) (hk : k.isDigit = false) :
    headNotP Char.isDigit (ws2 ++ k :: tail) := by
  cases ws2 with
  | nil => exact hk
  | cons c cs => exact space_not_digit c (hws2 c (List.mem_cons_self _ _))

theorem headNot_tok_ws (ws : List Char) (k : Char) (tail : List Char)
    (hws : ∀ c ∈ ws, isPySpace c = true) (hk : isTokChar k = false) :
    headNotP isTokChar (ws ++ k :: tail) := by
  cases ws with
  | nil => exact hk
  | cons c cs => exact space_not_tok c (hws c (List.mem_cons_self _ _))

theorem matchTotalAfter_phrase (ws1 ds ws2 tail : List Char)
    (hws1 : ∀ c ∈ ws1, isPySpace c = true)
    (hws2 : ∀ c ∈ ws2, isPySpace c = true)
    (hne : ds ≠ []) (hdig : ∀ c ∈ ds, c.isDigit = true) :
    matchTotalAfter (ws1 ++ (ds ++ (ws2 ++ '张' :: tail))) = some (ds, tail) := by
  have e1 : (ws1 ++ (ds ++ (ws2 ++ '张' :: tail))).dropWhile isPySpace
      = ds ++ (ws2 ++ '张' :: tail) := by
    rw [dropWhile_ws_append _ _ hws1]
    apply dropWhile_headNot
    cases ds with
    | nil => exact absurd rfl hne
    | cons d ds' =>
      exact isDigit_not_space d (hdig d (List.mem_cons_self _ _))
  obtain ⟨e2, e3⟩ := span_exact Char.isDigit ds (ws2 ++ '张' :: tail) hdig
    (headNot_digit_ws ws2 '张' tail hws2 (by decide))
  have e4 : (ws2 ++ '张' :: tail).dropWhile isPySpace = '张' :: tail := by
    rw [dropWhile_ws_append _ _ hws2]
    exact dropWhile_headNot _ _ (show isPySpace '张' = false from by decide)
  unfold matchTotalAfter
  rw [e1, e2, e3, e4, if_neg hne]
  rfl

theorem matchIdxAfter_phrase (ws4 tok ws5 post : List Char)
    (hws4 : ∀ c ∈ ws4, isPySpace c = true)
    (hws5 : ∀ c ∈ ws5, isPySpace c = true)
    (hne : tok ≠ []) (htokc : ∀ c ∈ tok, isTokChar c = true) :
    matchIdxAfter (ws4 ++ (tok ++ (ws5 ++ '张' :: post))) = some tok := by
  have e1 : (ws4 ++ (tok ++ (ws5 ++ '张' :: post))).dropWhile isPySpace
      = tok ++ (ws5 ++ '张' :: post) := by
    rw [dropWhile_ws_append _ _ hws4]
    apply dropWhile_headNot
    cases tok with
    | nil => exact absurd rfl hne
    | cons d tok' =>
      exact isTokChar_not_space d (htokc d (List.mem_cons_self _ _))
  obtain ⟨e2, e3⟩ := span_exact isTokChar tok (ws5 ++ '张' :: post) htokc
    (headNot_tok_ws ws5 '张' post hws5 (by decide))
  have e4 : (ws5 ++ '张' :: post).dropWhile isPySpace = '张' :: post := by
    rw [dropWhile_ws_append _ _ hws5]
    exact dropWhile_headNot _ _ (show isPySpace '张' = false from by decide)
  unfold matchIdxAfter
  rw [e1, e2, e3, e4, if_neg hne]
  rfl

theorem scanLazy_phrase (ws3 rest2 : List Char) (tok : List Char)
    (hws3 : ∀ c ∈ ws3, isPySpace c = true ∧ ¬(c = '\n'))
    (h : matchIdxAt ('第' :: rest2) = some tok) :
    scanLazy (ws3 ++ '第' :: rest2) = some tok := by
  induction ws3 with
  | nil =>
    rw [List.nil_append]
    show (match matchIdxAt ('第' :: rest2) with
          | some t => some t
          | none => if '第' = '\n' then none else scanLazy rest2) = some tok
    rw [h]
  | cons c cs ih =>
    obtain ⟨hsp, hnl⟩ := hws3 c (List.mem_cons_self _ _)
    have hcd : c ≠ '第' := by
      intro he
      subst he
      exact absurd hsp (by decide)
    rw [List.cons_append]
    show (match matchIdxAt (c :: (cs ++ '第' :: rest2)) with
          | some t => some t
          | none => if c = '\n' then none
                    else scanLazy (cs ++ '第' :: rest2)) = some tok
    rw [matchIdxAt_not_di c _ hcd]
    show (if c = '\n' then none else scanLazy (cs ++ '第' :: rest2)) = some tok
    rw [if_neg hnl]
    exact ih (fun d hd => hws3 d (List.mem_cons_of_mem _ hd))

theorem matchFullAt_phrase (s ds r3 tok : List Char)
    (ht : matchTotalAt s = some (ds, r3)) (hs : scanLazy r3 = some tok) :
    matchFullAt s = some (ds, tok) := by
  unfold matchFullAt
  rw [ht]
  show (match scanLazy r3 with
        | some t => some (ds, t)
        | none => none) = some (ds, tok)
  rw [hs]

theorem searchFull_pre (pre : List Char) (rest : List Char)
    (v : List Char × List Char) (hpre : '共' ∉ pre)
    (h : matchFullAt ('共' :: rest) = some v) :
    searchFull (pre ++ '共' :: rest) = some v := by
  induction pre with
  | nil =>
    rw [List.nil_append]
    show (match matchFullAt ('共' :: rest) with
          | some r => some r
          | none => searchFull rest) = some v
    rw [h]
  | cons c cs ih =>
    have hc : c ≠ '共' := fun he => hpre (he ▸ List.mem_cons_self _ _)
    rw [List.cons_append]
    show (match matchFullAt (c :: (cs ++ '共' :: rest)) with
          | some r => some r
          | none => searchFull (cs ++ '共' :: rest)) = some v
    rw [matchFullAt_not_gong c _ hc]
    exact ih (fun hm => hpre (List.mem_cons_of_mem _ hm))

/-- C7: for every gathered ROI text whose join contains the phrase
共N张第M张 — whitespace allowed around the captures, the gap between 张 and
第 whitespace without a newline, nothing before the phrase containing 共 —
the page_info parser returns (total = N, index = M), where the token X (or
x) denotes index 1; in particular "共20张第X张" yields (20, 1) and
"共5张 第3张" yields (5, 3). -/
theorem C7_pageInfo_phrase (texts : List TextRec)
    (pre ws1 ds ws2 ws3 ws4 tok ws5 post : List Char)
    (hjoin : joinSpace (texts.map (·.text)) =
      pre ++ '共' :: (ws1 ++ (ds ++ (ws2 ++ '张' ::
        (ws3 ++ '第' :: (ws4 ++ (tok ++ (ws5 ++ '张' :: post))))))))
    (hpre : '共' ∉ pre)
    (hws1 : ∀ c ∈ ws1, isPySpace c = true)
    (hws2 : ∀ c ∈ ws2, isPySpace c = true)
    (hws3 : ∀ c ∈ ws3, isPySpace c = true ∧ ¬(c = '\n'))
    (hws4 : ∀ c ∈ ws4, isPySpace c = true)
    (hws5 : ∀ c ∈ ws5, isPySpace c = true)
    (hds : ds ≠ [] ∧ ∀ c ∈ ds, c.isDigit = true)
    (htok : tok = ['X'] ∨ tok = ['x'] ∨ (tok ≠ [] ∧ ∀ c ∈ tok, c.isDigit = true)) :
    parsePageInfo texts =
      (some (natOfDigits ds : ℤ),
       some (if tok = ['X'] ∨ tok = ['x'] then 1 else (natOfDigits tok : ℤ))) := by
  have htokc : ∀ c ∈ tok, isTokChar c = true := by
    rcases htok with h | h | ⟨_, h⟩
    · subst h
      intro c hc
      rcases List.mem_singleton.mp hc with rfl
      decide
    · subst h
      intro c hc
      rcases List.mem_singleton.mp hc with rfl
      decide
    · intro c hc
      unfold isTokChar
      rw [h c hc]
      rfl
  have htokne : tok ≠ [] := by
    rcases htok with h | h | ⟨h1, _⟩
    · subst h
      simp
    · subst h
      simp
    · exact h1
  have hidx : matchIdxAt ('第' :: (ws4 ++ (tok ++ (ws5 ++ '张' :: post))))
      = some tok := matchIdxAfter_phrase ws4 tok ws5 post hws4 hws5 htokne htokc
  have htotal : matchTotalAt ('共' :: (ws1 ++ (ds ++ (ws2 ++ '张' ::
      (ws3 ++ '第' :: (ws4 ++ (tok ++ (ws5 ++ '张' :: post))))))))
      = some (ds, ws3 ++ '第' :: (ws4 ++ (tok ++ (ws5 ++ '张' :: post)))) :=
    matchTotalAfter_phrase ws1 ds ws2 _ hws1 hws2 hds.1 hds.2
  have hscan : scanLazy (ws3 ++ '第' :: (ws4 ++ (tok ++ (ws5 ++ '张' :: post))))
      = some tok := scanLazy_phrase ws3 _ tok hws3 hidx
  have hfull := matchFullAt_phrase _ _ _ _ htotal hscan
  unfold parsePageInfo parsePageInfoChars
  rw [hjoin, searchFull_pre pre _ _ hpre hfull]
  show ((some (natOfDigits ds : ℤ), idxVal tok) : Option ℤ × Option ℤ) = _
  have hival : idxVal tok =
      some (if tok = ['X'] ∨ tok = ['x'] then 1 else (natOfDigits tok : ℤ)) := by
    unfold idxVal
    rcases htok with h | h | ⟨h1, h2⟩
    · rw [if_pos (Or.inl h), if_pos (Or.inl h)]
    · rw [if_pos (Or.inr h), if_pos (Or.inr h)]
    · by_cases hx : tok = ['X'] ∨ tok = ['x']
      · rw [if_pos hx, if_pos hx]
      · rw [if_neg hx, if_pos ⟨h1, h2⟩, if_neg hx]
  rw [hival]

/-! ## ROI restoration (titleblock_extractor.py _restore_roi; the locator
method AnchorFirstLocator._restore_roi is the same formula) -/

/-- A profile relative-offset tuple [dx_right, dx_left, dy_bottom, dy_top],
as destructured by _restore_roi. -/
structure RBOffset where
  dxRight : ℚ
  dxLeft : ℚ
  dyBottom : ℚ
  dyTop : ℚ
deriving DecidableEq, Repr

/-- TitleblockExtractor._restore_roi: offsets measured from the outer
box right edge (x) and bottom edge (y), scaled by sx and sy. -/
def restoreRoi (outer : BBox) (off : RBOffset) (sx sy : ℚ) : BBox :=
  { xmin := outer.xmax - off.dxLeft * sx
    xmax := outer.xmax - off.dxRight * sx
    ymin := outer.ymin + off.dyBottom * sy
    ymax := outer.ymin + off.dyTop * sy }

/-! ## CandidateFinder (src/backend/src/cad/detection/candidate_finder.py)

Floats are rationals throughout; math.hypot and math.sin are avoided by
comparing squares: for a nonnegative sine bound t, |dy| / hypot(dx, dy) ≤ t
iff dy * dy ≤ t * t * (dx * dx + dy * dy), and hypot(dx, dy) ≤ 0 iff
dx * dx + dy * dy ≤ 0.  sinTol stands for sin(radians(orthogonality tol)). -/

/-- Constructor arguments of CandidateFinder.__init__ (sinTol is the
precomputed _sin_tol, assumed nonnegative as the sine of a small angle). -/
structure CandidateFinderCfg where
  minDim : ℚ
  coordTol : ℚ
  sinTol : ℚ
deriving DecidableEq, Repr

/-- One LINE segment by its endpoints. -/
structure Segment where
  x1 : ℚ
  y1 : ℚ
  x2 : ℚ
  y2 : ℚ
deriving DecidableEq, Repr

/-- Squared length of a segment. -/
def segLen2 (s : Segment) : ℚ :=
  (s.x2 - s.x1) * (s.x2 - s.x1) + (s.y2 - s.y1) * (s.y2 - s.y1)

/-- The test abs(dy) <= coord_tol or abs(dy)/length <= sin_tol, squared. -/
def horizTest (cfg : CandidateFinderCfg) (s : Segment) : Bool :=
  decide (|s.y2 - s.y1| ≤ cfg.coordTol) ||
  decide ((s.y2 - s.y1) * (s.y2 - s.y1) ≤ cfg.sinTol * cfg.sinTol * segLen2 s)

/-- The test abs(dx) <= coord_tol or abs(dx)/length <= sin_tol, squared. -/
def vertTest (cfg : CandidateFinderCfg) (s : Segment) : Bool :=
  decide (|s.x2 - s.x1| ≤ cfg.coordTol) ||
  decide ((s.x2 - s.x1) * (s.x2 - s.x1) ≤ cfg.sinTol * cfg.sinTol * segLen2 s)

/-- The horizontal entries (y, left, right) collected by
_rebuild_from_lines, in stream order. -/
def horizontalsOf (cfg : CandidateFinderCfg) (lines : List Segment) :
    List (ℚ × ℚ × ℚ) :=
  lines.filterMap (fun s =>
    if segLen2 s ≤ 0 then none
    else if horizTest cfg s then
      some ((s.y1 + s.y2) / 2, min s.x1 s.x2, max s.x1 s.x2)
    else none)

/-- The vertical entries (x, bottom, top) collected by _rebuild_from_lines
(the elif branch: only segments that failed the horizontal test). -/
def verticalsOf (cfg : CandidateFinderCfg) (lines : List Segment) :
    List (ℚ × ℚ × ℚ) :=
  lines.filterMap (fun s =>
    if segLen2 s ≤ 0 then none
    else if horizTest cfg s then none
    else if vertTest cfg s then
      some ((s.x1 + s.x2) / 2, min s.y1 s.y2, max s.y1 s.y2)
    else none)

/-- One running cluster of _cluster_segments: its mean coordinate, element
count, and collected intervals. -/
structure SegCluster where
  coord : ℚ
  count : ℕ
  segs : List (ℚ × ℚ)
deriving DecidableEq, Repr

/-- The clustering loop of _cluster_segments; the head of the accumulator
is the newest (Python clusters[-1]) cluster, so the final list is
reversed. -/
def clusterSegsGo (tol : ℚ) : List SegCluster → List (ℚ × ℚ × ℚ) →
    List SegCluster
  | acc, [] => acc.reverse
  | [], e :: rest => clusterSegsGo tol [⟨e.1, 1, [(e.2.1, e.2.2)]⟩] rest
  | cl :: accTail, e :: rest =>
    if |e.1 - cl.coord| > tol then
      clusterSegsGo tol (⟨e.1, 1, [(e.2.1, e.2.2)]⟩ :: cl :: accTail) rest
    else
      clusterSegsGo tol
        (⟨(cl.coord * (cl.count : ℚ) + e.1) / ((cl.count : ℚ) + 1),
          cl.count + 1, cl.segs ++ [(e.2.1, e.2.2)]⟩ :: accTail) rest

/-- The interval-merging loop of _merge_intervals; newest merged interval
at the head, result reversed. -/
def mergeGo (tol : ℚ) : List (ℚ × ℚ) → List (ℚ × ℚ) → List (ℚ × ℚ)
  | acc, [] => acc.reverse
  | [], x :: rest => mergeGo tol [x] rest
  | (ms, me) :: accTail, (s, e) :: rest =>
    if s ≤ me + tol then mergeGo tol ((ms, max me e) :: accTail) rest
    else mergeGo tol ((s, e) :: (ms, me) :: accTail) rest

/-- The lexicographic tuple order used by Python sorted on pairs. -/
def pairLe (a b : ℚ × ℚ) : Prop :=
  a.1 < b.1 ∨ (a.1 = b.1 ∧ a.2 ≤ b.2)

instance : DecidableRel pairLe := fun a b => by
  unfold pairLe
  infer_instance

/-- CandidateFinder._merge_intervals. -/
def mergeIntervals (tol : ℚ) (segments : List (ℚ × ℚ)) : List (ℚ × ℚ) :=
  if segments = [] then []
  else
    mergeGo tol []
      (List.insertionSort pairLe
        (segments.map (fun p => (min p.1 p.2, max p.1 p.2))))

/-- Insertion into a Python dict in insertion order: a later equal key
overwrites the stored value in place. -/
def dictInsert (m : List (ℚ × List (ℚ × ℚ))) (kv : ℚ × List (ℚ × ℚ)) :
    List (ℚ × List (ℚ × ℚ)) :=
  match m with
  | [] => [kv]
  | (k, v) :: rest =>
    if k = kv.1 then (k, kv.2) :: rest else (k, v) :: dictInsert rest kv

/-- Python dict lookup (keys are unique by construction). -/
def lookupD (m : List (ℚ × List (ℚ × ℚ))) (k : ℚ) : List (ℚ × ℚ) :=
  match m with
  | [] => []
  | (k', v) :: rest => if k' = k then v else lookupD rest k

/-- CandidateFinder._cluster_segments: stable sort by the constant
coordinate, cluster with running means, then the merged-intervals dict. -/
def clusterSegments (cfg : CandidateFinderCfg)
    (segments : List (ℚ × ℚ × ℚ)) : List (ℚ × List (ℚ × ℚ)) :=
  match segments with
  | [] => []
  | _ =>
    let sorted := List.insertionSort (fun a b => a.1 ≤ b.1) segments
    let clusters := clusterSegsGo cfg.coordTol [] sorted
    clusters.foldl
      (fun m cl => dictInsert m (cl.coord, mergeIntervals cfg.coordTol cl.segs))
      []

/-- CandidateFinder._has_edge. -/
def hasEdge (cfg : CandidateFinderCfg) (intervals : List (ℚ × ℚ))
    (s e : ℚ) : Bool :=
  intervals.any (fun p =>
    decide (p.1 ≤ s + cfg.coordTol) && decide (p.2 ≥ e - cfg.coordTol))

/-- Ascending sort of coordinates: sorted(keys). -/
def sortQ (l : List ℚ) : List ℚ := List.insertionSort (fun a b => a ≤ b) l

/-- All ordered index pairs (i < j) of a list, in the nested-loop order of
_rebuild_from_lines. -/
def ordPairs : List ℚ → List (ℚ × ℚ)
  | [] => []
  | x :: xs => (xs.map (fun y => (x, y))) ++ ordPairs xs

/-- The rectangle-emission loops of _rebuild_from_lines, before the seen-set
dedup: y pairs outer, x pairs inner, the four edge-coverage guards. -/
def rebuildCandidates (cfg : CandidateFinderCfg)
    (hseg vseg : List (ℚ × List (ℚ × ℚ))) : List BBox :=
  let ys := sortQ (hseg.map (·.1))
  let xs := sortQ (vseg.map (·.1))
  ((ordPairs ys).map (fun yp =>
    if yp.2 - yp.1 < cfg.minDim then []
    else
      ((ordPairs xs).map (fun xp =>
        if xp.2 - xp.1 < cfg.minDim then []
        else if hasEdge cfg (lookupD hseg yp.1) xp.1 xp.2 &&
                hasEdge cfg (lookupD hseg yp.2) xp.1 xp.2 &&
                hasEdge cfg (lookupD vseg xp.1) yp.1 yp.2 &&
                hasEdge cfg (lookupD vseg xp.2) yp.1 yp.2 then
          [⟨xp.1, yp.1, xp.2, yp.2⟩]
        else [])).flatten)).flatten

/-- Python banker rounding of x to an integer. -/
def roundHalfEven (x : ℚ) : ℤ :=
  let f := ⌊x⌋
  let r := x - (f : ℚ)
  if r < 1 / 2 then f
  else if r > 1 / 2 then f + 1
  else if f % 2 = 0 then f else f + 1

/-- The dedup key round(v, 3) as an integer count of thousandths (two
rounded floats are equal exactly when these integers are). -/
def roundKey3 (x : ℚ) : ℤ := roundHalfEven (x * 1000)

/-- The seen-set dedup loop of _rebuild_from_lines. -/
def dedupRects : List BBox → List (ℤ × ℤ × ℤ × ℤ) → List BBox
  | [], _ => []
  | b :: rest, seen =>
    let key := (roundKey3 b.xmin, roundKey3 b.ymin,
                roundKey3 b.xmax, roundKey3 b.ymax)
    if key ∈ seen then dedupRects rest seen
    else b :: dedupRects rest (key :: seen)

/-- CandidateFinder._rebuild_from_lines. -/
def rebuildFromLines (cfg : CandidateFinderCfg) (lines : List Segment) :
    List BBox :=
  dedupRects
    (rebuildCandidates cfg
      (clusterSegments cfg (horizontalsOf cfg lines))
      (clusterSegments cfg (verticalsOf cfg lines)))
    []

/-- The coordinate-clustering loop of _cluster_coords: compare each value
to the last element of the newest cluster; head of the accumulator is the
newest cluster, stored reversed. -/
def coordClusterGo (tol : ℚ) : List (List ℚ) → List ℚ → List (List ℚ)
  | acc, [] => (acc.map List.reverse).reverse
  | [], v :: vs => coordClusterGo tol [[v]] vs
  | cur :: accTail, v :: vs =>
    match cur with
    | [] => coordClusterGo tol ([v] :: accTail) vs
    | last :: _ =>
      if |v - last| ≤ tol then coordClusterGo tol ((v :: cur) :: accTail) vs
      else coordClusterGo tol ([v] :: cur :: accTail) vs

/-- CandidateFinder._cluster_coords: sort, cluster by tolerance against the
last element, return the cluster means. -/
def clusterCoords (tol : ℚ) (values : List ℚ) : List ℚ :=
  match values with
  | [] => []
  | _ =>
    (coordClusterGo tol [] (List.insertionSort (fun a b => a ≤ b) values)).map
      (fun c => c.sum / (c.length : ℚ))

/-- CandidateFinder._is_axis_aligned. -/
def isAxisAligned (cfg : CandidateFinderCfg)
    (vertices : List (ℚ × ℚ)) : Bool :=
  decide ((clusterCoords cfg.coordTol (vertices.map (·.1))).length = 2) &&
  decide ((clusterCoords cfg.coordTol (vertices.map (·.2))).length = 2)

/-- Python min over a nonempty list (the empty case is unreachable behind
the length guard). -/
def minQ : List ℚ → ℚ
  | [] => 0
  | x :: xs => xs.foldl min x

/-- Python max over a nonempty list. -/
def maxQ : List ℚ → ℚ
  | [] => 0
  | x :: xs => xs.foldl max x

/-- CandidateFinder._extract_bbox on the vertex list (the try/except around
entity access returning None on a malformed entity is outside the model). -/
def extractBbox (cfg : CandidateFinderCfg)
    (vertices : List (ℚ × ℚ)) : Option BBox :=
  if vertices.length < 4 then none
  else if ¬ (isAxisAligned cfg vertices = true) then none
  else
    some ⟨minQ (vertices.map (·.1)), minQ (vertices.map (·.2)),
          maxQ (vertices.map (·.1)), maxQ (vertices.map (·.2))⟩

/-! ## Text extents (anchor_first_locator.py _bbox_from_text and
_bbox_from_mtext); the float literals 0.6 and 1.2 are 3/5 and 6/5 under the
rational convention. -/

/-- The halign/valign placement ladder of _bbox_from_text on the computed
text width and height. -/
def alignedBox (x y w hh : ℚ) (halign valign : ℤ) : BBox :=
  let xpair : ℚ × ℚ :=
    if halign = 1 then (x - w / 2, x + w / 2)
    else if halign = 2 then (x - w, x)
    else (x, x + w)
  let ypair : ℚ × ℚ :=
    if valign = 3 then (y - hh, y)
    else if valign = 2 then (y - hh / 2, y + hh / 2)
    else (y, y + hh)
  ⟨xpair.1, ypair.1, xpair.2, ypair.2⟩

/-- AnchorFirstLocator._bbox_from_text. -/
def bboxFromText (text : List Char) (x y height : ℚ)
    (halign valign : ℤ) : BBox :=
  alignedBox x y
    (((max 1 (text.filter (fun c => decide (c ≠ ' '))).length : ℕ) : ℚ)
      * height * (3 / 5))
    (height * (6 / 5)) halign valign

/-- Python str.splitlines restricted to the newline character. -/
def splitLinesGo (cur : List Char) : List Char → List (List Char)
  | [] => [cur.reverse]
  | '\n' :: rest =>
    if rest = [] then [cur.reverse] else cur.reverse :: splitLinesGo [] rest
  | c :: rest => splitLinesGo (c :: cur) rest

/-- Python str.splitlines (ASCII newline only). -/
def splitLines (s : List Char) : List (List Char) :=
  match s with
  | [] => []
  | _ => splitLinesGo [] s

/-- The attachment-point placement ladder of _bbox_from_mtext on the
computed width and height. -/
def mtextBox (x y width height : ℚ) (attachment : ℤ) : BBox :=
  let ypair : ℚ × ℚ :=
    if attachment = 1 ∨ attachment = 2 ∨ attachment = 3 then (y - height, y)
    else if attachment = 4 ∨ attachment = 5 ∨ attachment = 6 then
      (y - height / 2, y + height / 2)
    else (y, y + height)
  let xpair : ℚ × ℚ :=
    if attachment = 1 ∨ attachment = 4 ∨ attachment = 7 then (x, x + width)
    else if attachment = 2 ∨ attachment = 5 ∨ attachment = 8 then
      (x - width / 2, x + width / 2)
    else (x - width, x)
  ⟨xpair.1, ypair.1, xpair.2, ypair.2⟩

/-- The nonempty line list of _bbox_from_mtext. -/
def mtextLines (text : List Char) : List (List Char) :=
  let lines0 := (splitLines text).filter (fun ln => decide (pyStrip ln ≠ []))
  if lines0 = [] then [text] else lines0

/-- AnchorFirstLocator._bbox_from_mtext; widthAttr is the dxf width
attribute with its or-0.0 default already applied. -/
def bboxFromMtext (text : List Char) (x y charH widthAttr : ℚ)
    (attachment : ℤ) : BBox :=
  mtextBox x y
    (if widthAttr ≤ 0 then
      (((mtextLines text).foldl (fun a ln => max a ln.length) 0 : ℕ) : ℚ)
        * charH * (3 / 5)
     else widthAttr)
    (((max 1 (mtextLines text).length : ℕ) : ℚ) * charH * (6 / 5))
    attachment

/-! ### C9: the rectangle invariant -/

theorem foldl_min_le_init (l : List ℚ) : ∀ x : ℚ, l.foldl min x ≤ x := by
  induction l with
  | nil => intro x; exact le_refl _
  | cons a t ih =>
    intro x
    exact le_trans (ih (min x a)) (min_le_left _ _)

theorem le_foldl_max (l : List ℚ) : ∀ x : ℚ, x ≤ l.foldl max x := by
  induction l with
  | nil => intro x; exact le_refl _
  | cons a t ih =>
    intro x
    exact le_trans (le_max_left _ _) (ih (max x a))

theorem minQ_le_maxQ (l : List ℚ) (h : l ≠ []) : minQ l ≤ maxQ l := by
  cases l with
  | nil => exact absurd rfl h
  | cons x t =>
    exact le_trans (foldl_min_le_init t x) (le_foldl_max t x)

theorem extractBbox_inv (cfg : CandidateFinderCfg)
    (vertices : List (ℚ × ℚ)) (b : BBox)
    (h : extractBbox cfg vertices = some b) : b.inv := by
  unfold extractBbox at h
  split at h
  · cases h
  · split at h
    · cases h
    · injection h with h'
      subst h'
      have hne : vertices ≠ [] := by
        intro he
        subst he
        simp at *
      constructor
      · exact minQ_le_maxQ _ (by
          intro he
          exact hne (List.map_eq_nil_iff.mp he))
      · exact minQ_le_maxQ _ (by
          intro he
          exact hne (List.map_eq_nil_iff.mp he))

theorem ordPairs_le (l : List ℚ) (hs : List.Sorted (fun a b : ℚ => a ≤ b) l) :
    ∀ p ∈ ordPairs l, p.1 ≤ p.2 := by
  induction l with
  | nil => intro p hp; cases hp
  | cons x xs ih =>
    intro p hp
    rcases List.mem_append.mp hp with hp | hp
    · rcases List.mem_map.mp hp with ⟨y, hy, rfl⟩
      exact (List.sorted_cons.mp hs).1 y hy
    · exact ih (List.sorted_cons.mp hs).2 p hp

theorem sortQ_sorted (l : List ℚ) :
    List.Sorted (fun a b : ℚ => a ≤ b) (sortQ l) :=
  List.sorted_insertionSort _ l

theorem rebuildCandidates_inv (cfg : CandidateFinderCfg)
    (hseg vseg : List (ℚ × List (ℚ × ℚ))) (b : BBox)
    (h : b ∈ rebuildCandidates cfg hseg vseg) : b.inv := by
  unfold rebuildCandidates at h
  rcases List.mem_flatten.mp h with ⟨ly, hly, hbly⟩
  rcases List.mem_map.mp hly with ⟨yp, hyp, rfl⟩
  have hyle : yp.1 ≤ yp.2 := ordPairs_le _ (sortQ_sorted _) yp hyp
  split at hbly
  · cases hbly
  · rcases List.mem_flatten.mp hbly with ⟨lx, hlx, hblx⟩
    rcases List.mem_map.mp hlx with ⟨xp, hxp, rfl⟩
    have hxle : xp.1 ≤ xp.2 := ordPairs_le _ (sortQ_sorted _) xp hxp
    split at hblx
    · cases hblx
    · split at hblx
      · rcases List.mem_singleton.mp hblx with rfl
        exact ⟨hxle, hyle⟩
      · cases hblx

theorem dedupRects_sub :
    ∀ (l : List BBox) (seen : List (ℤ × ℤ × ℤ × ℤ)) (b : BBox),
      b ∈ dedupRects l seen → b ∈ l := by
  intro l
  induction l with
  | nil => intro seen b h; cases h
  | cons x t ih =>
    intro seen b h
    have hc : dedupRects (x :: t) seen =
        if (roundKey3 x.xmin, roundKey3 x.ymin, roundKey3 x.xmax,
            roundKey3 x.ymax) ∈ seen then dedupRects t seen
        else x :: dedupRects t ((roundKey3 x.xmin, roundKey3 x.ymin,
            roundKey3 x.xmax, roundKey3 x.ymax) :: seen) := rfl
    rw [hc] at h
    split at h
    · exact List.mem_cons_of_mem _ (ih _ b h)
    · rcases List.mem_cons.mp h with h | h
      · exact h ▸ List.mem_cons_self _ _
      · exact List.mem_cons_of_mem _ (ih _ b h)

theorem rebuildFromLines_inv (cfg : CandidateFinderCfg)
    (lines : List Segment) (b : BBox)
    (h : b ∈ rebuildFromLines cfg lines) : b.inv :=
  rebuildCandidates_inv cfg _ _ b (dedupRects_sub _ _ b h)

theorem restoreRoi_inv (outer : BBox) (off : RBOffset) (sx sy : ℚ)
    (hsx : 0 < sx) (hsy : 0 < sy)
    (hx : off.dxRight ≤ off.dxLeft) (hy : off.dyBottom ≤ off.dyTop) :
    (restoreRoi outer off sx sy).inv := by
  constructor
  · exact sub_le_sub_left (mul_le_mul_of_nonneg_right hx hsx.le) _
  · exact add_le_add_left (mul_le_mul_of_nonneg_right hy hsy.le) _

theorem alignedBox_inv (x y w hh : ℚ) (halign valign : ℤ)
    (hw : 0 ≤ w) (hh0 : 0 ≤ hh) : (alignedBox x y w hh halign valign).inv := by
  unfold alignedBox BBox.inv
  split_ifs <;> constructor <;> simp <;> linarith

theorem bboxFromText_inv (text : List Char) (x y height : ℚ)
    (halign valign : ℤ) (h : 0 ≤ height) :
    (bboxFromText text x y height halign valign).inv := by
  apply alignedBox_inv
  · have : (0 : ℚ) ≤ ((max 1 (text.filter (fun c => decide (c ≠ ' '))).length
        : ℕ) : ℚ) := Nat.cast_nonneg _
    nlinarith
  · nlinarith

theorem mtextBox_inv (x y width height : ℚ) (attachment : ℤ)
    (hw : 0 ≤ width) (hh : 0 ≤ height) :
    (mtextBox x y width height attachment).inv := by
  unfold mtextBox BBox.inv
  split_ifs <;> constructor <;> simp <;> linarith

theorem bboxFromMtext_inv (text : List Char) (x y charH widthAttr : ℚ)
    (attachment : ℤ) (h : 0 ≤ charH) :
    (bboxFromMtext text x y charH widthAttr attachment).inv := by
  apply mtextBox_inv
  · split_ifs with hwa
    · have : (0 : ℚ) ≤ (((mtextLines text).foldl
          (fun a ln => max a ln.length) 0 : ℕ) : ℚ) := Nat.cast_nonneg _
      nlinarith
    · linarith
  · have : (0 : ℚ) ≤ ((max 1 (mtextLines text).length : ℕ) : ℚ) :=
      Nat.cast_nonneg _
    nlinarith

/-- C9 counterexample: with positive sx and sy but an offset tuple whose
right offset exceeds its left offset, _restore_roi yields a rectangle with
xmin > xmax; likewise the text-extent approximation violates the invariant
for a negative font height.  So the claim fails without conditions on the
offset tuple and the font height. -/
theorem C9_counterexample :
    (0 : ℚ) < 1 ∧
    ¬ (restoreRoi ⟨0, 0, 100, 100⟩ ⟨50, 10, 0, 10⟩ 1 1).inv ∧
    ¬ (bboxFromText (("AB").data) 0 0 (-1) 0 0).inv := by
  refine ⟨?_, ?_, ?_⟩ <;> with_unfolding_all decide

/-- C9 (amended): every rectangle produced by candidate extraction and by
line-based rectangle reconstruction satisfies xmin ≤ xmax and ymin ≤ ymax
unconditionally; the ROI restored from a profile offset tuple satisfies it
when sx and sy are positive and the tuple is ordered (dx_right ≤ dx_left
and dy_bottom ≤ dy_top); the text-extent approximations satisfy it for a
nonnegative font height. -/
theorem C9_bbox_invariant :
    (∀ (cfg : CandidateFinderCfg) (vertices : List (ℚ × ℚ)) (b : BBox),
      extractBbox cfg vertices = some b → b.inv) ∧
    (∀ (cfg : CandidateFinderCfg) (lines : List Segment) (b : BBox),
      b ∈ rebuildFromLines cfg lines → b.inv) ∧
    (∀ (outer : BBox) (off : RBOffset) (sx sy : ℚ), 0 < sx → 0 < sy →
      off.dxRight ≤ off.dxLeft → off.dyBottom ≤ off.dyTop →
      (restoreRoi outer off sx sy).inv) ∧
    (∀ (text : List Char) (x y height : ℚ) (halign valign : ℤ), 0 ≤ height →
      (bboxFromText text x y height halign valign).inv) ∧
    (∀ (text : List Char) (x y charH widthAttr : ℚ) (attachment : ℤ),
      0 ≤ charH → (bboxFromMtext text x y charH widthAttr attachment).inv) :=
  ⟨extractBbox_inv, rebuildFromLines_inv,
    fun outer off sx sy h1 h2 h3 h4 => restoreRoi_inv outer off sx sy h1 h2 h3 h4,
    fun text x y height ha va h => bboxFromText_inv text x y height ha va h,
    fun text x y ch wa ap h => bboxFromMtext_inv text x y ch wa ap h⟩

/-! ## A4MultipageGrouper (src/backend/src/cad/a4_multipage.py)

The recursive _dfs is modelled as a worklist recursion: processing a
worklist entry x checks visited[x] (the check Python performs before each
recursive call), marks it, prepends the adjacency list of x to the
remaining work — the exact preorder of the Python recursion.  The fuel
argument only bounds the depth; dfsGo_spec shows the chosen fuel
(1 + the summed cost of the unvisited nodes) is never exhausted. -/

/-- Substring containment c in s, for the check "A4" in paper_id. -/
def isPrefixOfChars : List Char → List Char → Bool
  | [], _ => true
  | _ :: _, [] => false
  | a :: as, b :: bs => decide (a = b) && isPrefixOfChars as bs

/-- Substring containment (Python in on str). -/
def containsSub (needle hay : List Char) : Bool :=
  match hay with
  | [] => isPrefixOfChars needle []
  | _ :: t => isPrefixOfChars needle hay || containsSub needle t

/-- A4MultipageGrouper._is_a4_frame. -/
def isA4Frame (f : FrameMeta) : Bool :=
  match f.runtime.paper_variant_id with
  | some pid => containsSub (("A4").data) pid.data
  | none => false

/-- Placeholder frame for positional access (indices are always in range;
Python would raise IndexError otherwise). -/
def dfltFrame : FrameMeta :=
  { runtime := { frame_id := "", source_file := "", outer_bbox := ⟨0, 0, 0, 0⟩ } }

/-- The ordered index pairs (i, j), i < j < n, in the nested-loop order of
_build_clusters. -/
def pairsUpto (n : ℕ) : List (ℕ × ℕ) :=
  ((List.range n).map (fun i =>
    ((List.range n).filter (fun j => decide (i < j))).map (fun j => (i, j)))).flatten

/-- adj[i].append(x). -/
def adjAppend (adj : List (List ℕ)) (i x : ℕ) : List (List ℕ) :=
  adj.set i (adj.getD i [] ++ [x])

/-- The adjacency construction of _build_clusters. -/
def buildAdj (gapFactor : ℚ) (frames : List FrameMeta) : List (List ℕ) :=
  (pairsUpto frames.length).foldl
    (fun adj p =>
      if framesAreNeighbors (frames.getD p.1 dfltFrame)
          (frames.getD p.2 dfltFrame) gapFactor = true then
        adjAppend (adjAppend adj p.1 p.2) p.2 p.1
      else adj)
    (List.replicate frames.length [])

/-- The depth-first search of _dfs as a fuel-bounded worklist recursion. -/
def dfsGo (adj : List (List ℕ)) : ℕ → List ℕ → List Bool → List ℕ →
    List Bool × List ℕ
  | 0, _, visited, cluster => (visited, cluster)
  | _ + 1, [], visited, cluster => (visited, cluster)
  | fuel + 1, x :: rest, visited, cluster =>
    if visited.getD x true = false then
      let r := dfsGo adj fuel (adj.getD x []) (visited.set x true)
        (cluster ++ [x])
      dfsGo adj fuel rest r.1 r.2
    else dfsGo adj fuel rest visited cluster

/-- The total remaining work: one unit per unvisited node plus the length
of its adjacency list. -/
def unvisitedCost (adj : List (List ℕ)) (visited : List Bool) : ℕ :=
  (((List.range visited.length).filter
      (fun i => !(visited.getD i true))).map
    (fun i => 1 + (adj.getD i []).length)).sum

/-- The outer component loop of _build_clusters over node indices. -/
def buildGo (adj : List (List ℕ)) : List ℕ → List Bool → List (List ℕ)
  | [], _ => []
  | i :: rest, visited =>
    if visited.getD i true = false then
      let r := dfsGo adj (1 + unvisitedCost adj visited) [i] visited []
      r.2 :: buildGo adj rest r.1
    else buildGo adj rest visited

/-- Connected components of the adjacency structure, as index clusters in
DFS preorder. -/
def buildClusters (adj : List (List ℕ)) (n : ℕ) : List (List ℕ) :=
  buildGo adj (List.range n) (List.replicate n false)

/-- A4MultipageGrouper._build_clusters, returning frame clusters. -/
def buildClustersFrames (gapFactor : ℚ) (a4Frames : List FrameMeta) :
    List (List FrameMeta) :=
  match a4Frames with
  | [] => []
  | _ =>
    (buildClusters (buildAdj gapFactor a4Frames) a4Frames.length).map
      (fun c => c.map (fun i => a4Frames.getD i dfltFrame))

/-- Python x or d on an optional int (None and 0 fall back to d). -/
def orInt (o : Option ℤ) (dflt : ℤ) : ℤ :=
  match o with
  | some v => if v = 0 then dflt else v
  | none => dflt

/-- The PageInfo built for one cluster frame in _process_cluster. -/
def mkPageInfo (master : FrameMeta) (frame : FrameMeta) : PageInfo :=
  let isM := decide (frame.frame_id = master.frame_id)
  { page_index := orInt frame.titleblock.page_index (if isM then 1 else 0),
    outer_bbox := frame.runtime.outer_bbox,
    has_titleblock := isM,
    frame_meta := if isM then some frame else none }

/-- A4MultipageGrouper._process_cluster (the uuid4 cluster id is injected
as a parameter). -/
def processCluster (clusterId : String) (cluster : List FrameMeta) :
    Option SheetSet :=
  match identifyMaster cluster with
  | none => none
  | some master =>
    let pagesSorted := List.insertionSort
      (fun a b => a.page_index ≤ b.page_index) (cluster.map (mkPageInfo master))
    let masterPage : Option PageInfo :=
      match pagesSorted with
      | p :: _ => if p.has_titleblock then some p else none
      | [] => none
    some (validateConsistency
      { cluster_id := clusterId,
        page_total := orInt master.titleblock.page_total (cluster.length : ℤ),
        pages := pagesSorted,
        master_page := masterPage }).1

/-- The per-cluster loop of group_a4_pages: collect the sheet sets and the
frame ids absorbed into them. -/
def processClusters (idGen : ℕ → String) :
    ℕ → List (List FrameMeta) → List SheetSet × List String
  | _, [] => ([], [])
  | k, c :: rest =>
    if c.length < 2 then processClusters idGen (k + 1) rest
    else
      match processCluster (idGen k) c with
      | none => processClusters idGen (k + 1) rest
      | some ss =>
        let r := processClusters idGen (k + 1) rest
        (ss :: r.1, c.map FrameMeta.frame_id ++ r.2)

/-- A4MultipageGrouper.group_a4_pages. -/
def groupA4Pages (gapFactor : ℚ) (idGen : ℕ → String)
    (frames : List FrameMeta) : List FrameMeta × List SheetSet :=
  let a4 := frames.filter isA4Frame
  if a4.length < 2 then (frames, [])
  else
    let clusters := buildClustersFrames gapFactor a4
    let r := processClusters idGen 0 clusters
    (frames.filter (fun f => !(r.2.contains f.frame_id)), r.1)

/-! ### C10 support: list access and cost lemmas -/

theorem getD_false_lt (v : List Bool) (x : ℕ)
    (h : v.getD x true = false) : x < v.length := by
  induction v generalizing x with
  | nil => cases h
  | cons b t ih =>
    cases x with
    | zero => simp
    | succ x =>
      have : t.getD x true = false := h
      have := ih x this
      simp only [List.length_cons]
      omega

theorem getD_set_self (v : List Bool) (x : ℕ) (hx : x < v.length) :
    (v.set x true).getD x true = true := by
  induction v generalizing x with
  | nil => simp at hx
  | cons b t ih =>
    cases x with
    | zero => rfl
    | succ x =>
      have hx' : x < t.length := by
        simp only [List.length_cons] at hx
        omega
      exact ih x hx'

theorem getD_set_ne (v : List Bool) (x j : ℕ) (b : Bool) (hne : j ≠ x) :
    (v.set x b).getD j true = v.getD j true := by
  induction v generalizing x j with
  | nil => rfl
  | cons c t ih =>
    cases x with
    | zero =>
      cases j with
      | zero => exact absurd rfl hne
      | succ j => rfl
    | succ x =>
      cases j with
      | zero => rfl
      | succ j => exact ih x j (fun he => hne (by rw [he]))

theorem getD_set_char (v : List Bool) (x j : ℕ) (hx : x < v.length) :
    ((v.set x true).getD j true = true ↔
      v.getD j true = true ∨ j = x) := by
  by_cases hj : j = x
  · subst hj
    constructor
    · intro _
      exact Or.inr rfl
    · intro _
      exact getD_set_self v j hx
  · rw [getD_set_ne v x j true hj]
    simp [hj]

theorem sum_filter_mono (p q : ℕ → Bool) (f : ℕ → ℕ)
    (himp : ∀ i, p i = true → q i = true) :
    ∀ l : List ℕ, ((l.filter p).map f).sum ≤ ((l.filter q).map f).sum := by
  intro l
  induction l with
  | nil => exact le_refl _
  | cons a t ih =>
    by_cases hp : p a = true
    · rw [List.filter_cons_of_pos hp, List.filter_cons_of_pos (himp a hp)]
      simp only [List.map_cons, List.sum_cons]
      omega
    · rw [List.filter_cons_of_neg hp]
      by_cases hq : q a = true
      · rw [List.filter_cons_of_pos hq]
        simp only [List.map_cons, List.sum_cons]
        omega
      · rw [List.filter_cons_of_neg hq]
        exact ih

theorem filter_update_sum (f : ℕ → ℕ) (p q : ℕ → Bool) (x : ℕ)
    (hq : ∀ i, i ≠ x → q i = p i) (hpx : p x = true) (hqx : q x = false) :
    ∀ l : List ℕ, l.Nodup → x ∈ l →
      ((l.filter p).map f).sum = ((l.filter q).map f).sum + f x := by
  intro l
  induction l with
  | nil => intro _ hx; cases hx
  | cons a t ih =>
    intro hnd hx
    have hnd' := List.nodup_cons.mp hnd
    by_cases ha : a = x
    · subst ha
      rw [List.filter_cons_of_pos hpx, List.filter_cons_of_neg (by rw [hqx]; simp)]
      have hft : t.filter p = t.filter q := by
        apply List.filter_congr
        intro i hi
        exact (hq i (fun he => hnd'.1 (he ▸ hi))).symm
      rw [hft]
      simp only [List.map_cons, List.sum_cons]
      omega
    · have hx' : x ∈ t := by
        rcases List.mem_cons.mp hx with h | h
        · exact absurd h.symm ha
        · exact h
      have hqa : q a = p a := hq a ha
      by_cases hpa : p a = true
      · rw [List.filter_cons_of_pos hpa,
          List.filter_cons_of_pos (by rw [hqa]; exact hpa)]
        simp only [List.map_cons, List.sum_cons]
        rw [ih hnd'.2 hx']
        omega
      · rw [List.filter_cons_of_neg hpa,
          List.filter_cons_of_neg (by rw [hqa]; exact hpa)]
        exact ih hnd'.2 hx'

theorem uc_set (adj : List (List ℕ)) (v : List Bool) (x : ℕ)
    (hx : v.getD x true = false) :
    unvisitedCost adj v =
      unvisitedCost adj (v.set x true) + (1 + (adj.getD x []).length) := by
  have hlt := getD_false_lt v x hx
  unfold unvisitedCost
  rw [List.length_set]
  exact filter_update_sum (fun i => 1 + (adj.getD i []).length)
    (fun i => !(v.getD i true)) (fun i => !((v.set x true).getD i true)) x
    (fun i hi => by
      show (!((v.set x true).getD i true)) = (!(v.getD i true))
      rw [getD_set_ne v x i true hi])
    (by
      show (!(v.getD x true)) = true
      rw [hx]
      rfl)
    (by
      show (!((v.set x true).getD x true)) = false
      rw [getD_set_self v x hlt]
      rfl)
    (List.range v.length) (List.nodup_range _)
    (List.mem_range.mpr hlt)

theorem uc_mono (adj : List (List ℕ)) (v v' : List Bool)
    (hlen : v'.length = v.length)
    (hmono : ∀ j, v.getD j true = true → v'.getD j true = true) :
    unvisitedCost adj v' ≤ unvisitedCost adj v := by
  unfold unvisitedCost
  rw [hlen]
  apply sum_filter_mono
  intro i hi
  simp only [Bool.not_eq_true'] at hi ⊢
  by_cases h : v.getD i true = true
  · have := hmono i h
    rw [this] at hi
    cases hi
  · exact Bool.not_eq_true _ |>.mp h

theorem dfsGo_zero (adj : List (List ℕ)) (ws : List ℕ) (v : List Bool)
    (cl : List ℕ) : dfsGo adj 0 ws v cl = (v, cl) := by
  cases ws <;> rfl

theorem dfsGo_cons (adj : List (List ℕ)) (fuel x : ℕ) (rest : List ℕ)
    (v : List Bool) (cl : List ℕ) :
    dfsGo adj (fuel + 1) (x :: rest) v cl =
      if v.getD x true = false then
        dfsGo adj fuel rest
          (dfsGo adj fuel (adj.getD x []) (v.set x true) (cl ++ [x])).1
          (dfsGo adj fuel (adj.getD x []) (v.set x true) (cl ++ [x])).2
      else dfsGo adj fuel rest v cl := rfl

theorem dfsGo_spec (adj : List (List ℕ)) :
    ∀ (fuel : ℕ) (ws : List ℕ) (v : List Bool) (cl : List ℕ),
      ws.length + unvisitedCost adj v ≤ fuel →
      ∃ v' ns,
        dfsGo adj fuel ws v cl = (v', cl ++ ns) ∧
        ns.Nodup ∧
        (∀ y ∈ ns, v.getD y true = false) ∧
        v'.length = v.length ∧
        (∀ j, v'.getD j true = true ↔ (v.getD j true = true ∨ j ∈ ns)) ∧
        (∀ y ∈ ws, v'.getD y true = true) := by
  intro fuel
  induction fuel with
  | zero =>
    intro ws v cl hb
    have hws : ws = [] := by
      cases ws with
      | nil => rfl
      | cons a t => simp at hb
    subst hws
    refine ⟨v, [], ?_, List.nodup_nil, ?_, rfl, ?_, ?_⟩
    · rw [dfsGo_zero, List.append_nil]
    · intro y hy
      cases hy
    · intro j
      simp
    · intro y hy
      cases hy
  | succ fuel ih =>
    intro ws v cl hb
    cases ws with
    | nil =>
      refine ⟨v, [], ?_, List.nodup_nil, ?_, rfl, ?_, ?_⟩
      · rw [List.append_nil]
        rfl
      · intro y hy
        cases hy
      · intro j
        simp
      · intro y hy
        cases hy
    | cons x rest =>
      by_cases hx : v.getD x true = false
      · have hxlt := getD_false_lt v x hx
        have hcost := uc_set adj v x hx
        simp only [List.length_cons] at hb
        have hbound1 : (adj.getD x []).length +
            unvisitedCost adj (v.set x true) ≤ fuel := by omega
        obtain ⟨v1, ns1, hr1, hnd1, hfresh1, hlen1, hiff1, hcov1⟩ :=
          ih (adj.getD x []) (v.set x true) (cl ++ [x]) hbound1
        have hlen1' : v1.length = v.length := by
          rw [hlen1, List.length_set]
        have hucv1 : unvisitedCost adj v1 ≤ unvisitedCost adj (v.set x true) :=
          uc_mono adj _ _ hlen1 (fun j hj => (hiff1 j).mpr (Or.inl hj))
        have hbound2 : rest.length + unvisitedCost adj v1 ≤ fuel := by omega
        obtain ⟨v2, ns2, hr2, hnd2, hfresh2, hlen2, hiff2, hcov2⟩ :=
          ih rest v1 ((cl ++ [x]) ++ ns1) hbound2
        have hxns1 : x ∉ ns1 := by
          intro hm
          have hf := hfresh1 x hm
          rw [getD_set_self v x hxlt] at hf
          cases hf
        have hv1x : v1.getD x true = true :=
          (hiff1 x).mpr (Or.inl (getD_set_self v x hxlt))
        have hv2x : v2.getD x true = true := (hiff2 x).mpr (Or.inl hv1x)
        have hxns2 : x ∉ ns2 := by
          intro hm
          have hf := hfresh2 x hm
          rw [hv1x] at hf
          cases hf
        have hdisj : ∀ y ∈ ns1, y ∉ ns2 := by
          intro y hy hm
          have h1 : v1.getD y true = true := (hiff1 y).mpr (Or.inr hy)
          have hf := hfresh2 y hm
          rw [h1] at hf
          cases hf
        refine ⟨v2, x :: (ns1 ++ ns2), ?_, ?_, ?_, ?_, ?_, ?_⟩
        · rw [dfsGo_cons, if_pos hx, hr1]
          show dfsGo adj fuel rest v1 ((cl ++ [x]) ++ ns1) = _
          rw [hr2]
          simp
        · rw [List.nodup_cons]
          constructor
          · intro hm
            rcases List.mem_append.mp hm with h | h
            · exact hxns1 h
            · exact hxns2 h
          · rw [List.nodup_append]
            exact ⟨hnd1, hnd2, fun y hy => hdisj y hy⟩
        · intro y hy
          rcases List.mem_cons.mp hy with rfl | hy2
          · exact hx
          rcases List.mem_append.mp hy2 with h | h
          · have hf := hfresh1 y h
            by_cases hyx : y = x
            · subst hyx
              rw [getD_set_self v y hxlt] at hf
              cases hf
            · rw [getD_set_ne v x y true hyx] at hf
              exact hf
          · have hf := hfresh2 y h
            by_cases hvy : v.getD y true = true
            · have hset : (v.set x true).getD y true = true := by
                by_cases hyx : y = x
                · subst hyx
                  exact getD_set_self v y hxlt
                · rw [getD_set_ne v x y true hyx]
                  exact hvy
              have h1 := (hiff1 y).mpr (Or.inl hset)
              rw [h1] at hf
              cases hf
            · exact Bool.not_eq_true _ |>.mp hvy
        · exact hlen2.trans hlen1'
        · intro j
          rw [hiff2 j, hiff1 j, getD_set_char v x j hxlt]
          simp only [List.mem_cons, List.mem_append]
          tauto
        · intro y hy
          rcases List.mem_cons.mp hy with rfl | hy2
          · exact hv2x
          · exact hcov2 y hy2
      · have hb' : rest.length + unvisitedCost adj v ≤ fuel := by
          simp only [List.length_cons] at hb
          omega
        obtain ⟨v', ns, hr, hnd, hfresh, hlen, hiff, hcov⟩ := ih rest v cl hb'
        refine ⟨v', ns, ?_, hnd, hfresh, hlen, hiff, ?_⟩
        · rw [dfsGo_cons, if_neg hx]
          exact hr
        · intro y hy
          rcases List.mem_cons.mp hy with rfl | hy2
          · have hvy : v.getD y true = true := by
              rcases Bool.eq_false_or_eq_true (v.getD y true) with h | h
              · exact h
              · exact absurd h hx
            exact (hiff y).mpr (Or.inl hvy)
          · exact hcov y hy2

theorem buildGo_cons (adj : List (List ℕ)) (i : ℕ) (rest : List ℕ)
    (v : List Bool) :
    buildGo adj (i :: rest) v =
      if v.getD i true = false then
        (dfsGo adj (1 + unvisitedCost adj v) [i] v []).2 ::
          buildGo adj rest (dfsGo adj (1 + unvisitedCost adj v) [i] v []).1
      else buildGo adj rest v := rfl

theorem buildGo_spec (adj : List (List ℕ)) :
    ∀ (idxs : List ℕ) (v : List Bool),
      ∃ ns : List ℕ,
        (buildGo adj idxs v).flatten = ns ∧
        ns.Nodup ∧
        (∀ y ∈ ns, v.getD y true = false) ∧
        (∀ i ∈ idxs, v.getD i true = false → i ∈ ns) := by
  intro idxs
  induction idxs with
  | nil =>
    intro v
    refine ⟨[], rfl, List.nodup_nil, ?_, ?_⟩
    · intro y hy
      cases hy
    · intro i hi
      cases hi
  | cons i rest ih =>
    intro v
    by_cases hv : v.getD i true = false
    · obtain ⟨v1, ns1, hr, hnd1, hfresh1, hlen1, hiff1, hcov1⟩ :=
        dfsGo_spec adj (1 + unvisitedCost adj v) [i] v [] (by simp)
      obtain ⟨ns2, hflat2, hnd2, hfresh2, hcov2⟩ := ih v1
      have hr1 : (dfsGo adj (1 + unvisitedCost adj v) [i] v []).1 = v1 := by
        rw [hr]
      have hr2 : (dfsGo adj (1 + unvisitedCost adj v) [i] v []).2 = ns1 := by
        rw [hr]
        rfl
      have hfresh2v : ∀ y ∈ ns2, v.getD y true = false := by
        intro y hy
        have h1 := hfresh2 y hy
        rcases Bool.eq_false_or_eq_true (v.getD y true) with h | h
        · have := (hiff1 y).mpr (Or.inl h)
          rw [this] at h1
          cases h1
        · exact h
      have hdisj : ∀ y ∈ ns1, y ∉ ns2 := by
        intro y hy hm
        have h1 : v1.getD y true = true := (hiff1 y).mpr (Or.inr hy)
        have h2 := hfresh2 y hm
        rw [h1] at h2
        cases h2
      refine ⟨ns1 ++ ns2, ?_, ?_, ?_, ?_⟩
      · rw [buildGo_cons, if_pos hv, hr1, hr2]
        rw [List.flatten_cons, hflat2]
      · rw [List.nodup_append]
        exact ⟨hnd1, hnd2, fun y hy => hdisj y hy⟩
      · intro y hy
        rcases List.mem_append.mp hy with h | h
        · exact hfresh1 y h
        · exact hfresh2v y h
      · intro j hj hjf
        rcases List.mem_cons.mp hj with rfl | hj2
        · have hc := hcov1 j (List.mem_singleton.mpr rfl)
          rcases (hiff1 j).mp hc with h | h
          · rw [h] at hjf
            cases hjf
          · exact List.mem_append_left _ h
        · rcases Bool.eq_false_or_eq_true (v1.getD j true) with h | h
          · rcases (hiff1 j).mp h with h2 | h2
            · rw [h2] at hjf
              cases hjf
            · exact List.mem_append_left _ h2
          · exact List.mem_append_right _ (hcov2 j hj2 h)
    · obtain ⟨ns, hflat, hnd, hfresh, hcov⟩ := ih v
      refine ⟨ns, ?_, hnd, hfresh, ?_⟩
      · rw [buildGo_cons, if_neg hv]
        exact hflat
      · intro j hj hjf
        rcases List.mem_cons.mp hj with rfl | hj2
        · exact absurd hjf hv
        · exact hcov j hj2 hjf

theorem getD_replicate_false (n y : ℕ) :
    (List.replicate n false).getD y true = false ↔ y < n := by
  induction n generalizing y with
  | zero =>
    cases y <;> simp [List.replicate]
  | succ n ih =>
    cases y with
    | zero => simp [List.replicate]
    | succ y =>
      rw [List.replicate_succ]
      have : (false :: List.replicate n false).getD (y + 1) true
          = (List.replicate n false).getD y true := rfl
      rw [this, ih]
      omega

theorem buildClusters_perm (adj : List (List ℕ)) (n : ℕ) :
    (buildClusters adj n).flatten.Perm (List.range n) := by
  obtain ⟨ns, hflat, hnd, hfresh, hcov⟩ :=
    buildGo_spec adj (List.range n) (List.replicate n false)
  unfold buildClusters
  rw [hflat]
  apply List.Subperm.antisymm
  · apply List.Nodup.subperm hnd
    intro y hy
    have := hfresh y hy
    rw [getD_replicate_false] at this
    exact List.mem_range.mpr this
  · apply List.Nodup.subperm (List.nodup_range n)
    intro i hi
    exact hcov i hi ((getD_replicate_false n i).mpr (List.mem_range.mp hi))

theorem map_getD_range {α : Type} (l : List α) (d : α) :
    (List.range l.length).map (fun i => l.getD i d) = l := by
  induction l with
  | nil => rfl
  | cons x t ih =>
    rw [List.length_cons, List.range_succ_eq_map, List.map_cons, List.map_map]
    have : ((fun i => (x :: t).getD i d) ∘ Nat.succ) = fun i => t.getD i d := by
      funext i
      rfl
    rw [this, ih]
    rfl

theorem flatten_filter_perm {α : Type} (P : List α → Bool)
    (L : List (List α)) :
    ((L.filter P).flatten ++ (L.filter (fun c => !(P c))).flatten).Perm
      L.flatten := by
  induction L with
  | nil => exact List.Perm.refl _
  | cons c rest ih =>
    by_cases hp : P c = true
    · rw [List.filter_cons_of_pos hp,
        List.filter_cons_of_neg (by simp [hp]),
        List.flatten_cons, List.flatten_cons, List.append_assoc]
      exact (List.Perm.append_left c ih)
    · have hpf : P c = false := Bool.eq_false_iff.mpr hp
      rw [List.filter_cons_of_neg hp,
        List.filter_cons_of_pos (by simp [hpf]),
        List.flatten_cons, List.flatten_cons, ← List.append_assoc]
      refine List.Perm.trans
        (List.Perm.append_right _ List.perm_append_comm) ?_
      rw [List.append_assoc]
      exact List.Perm.append_left c ih

theorem validateConsistency_pages (ss : SheetSet) :
    (validateConsistency ss).1.pages = ss.pages := rfl

theorem processCluster_char (cid : String) (c : List FrameMeta)
    (hne : c ≠ []) :
    ∃ m ss, identifyMaster c = some m ∧ processCluster cid c = some ss ∧
      List.Perm ss.pages (c.map (mkPageInfo m)) ∧
      ss.pages.length = c.length := by
  have hs := identifyMaster_isSome c hne
  rcases hm : identifyMaster c with _ | m
  · rw [hm] at hs
    cases hs
  · have hpc : processCluster cid c = some (validateConsistency
        { cluster_id := cid,
          page_total := orInt m.titleblock.page_total (c.length : ℤ),
          pages := List.insertionSort
            (fun a b => a.page_index ≤ b.page_index) (c.map (mkPageInfo m)),
          master_page :=
            match List.insertionSort
                (fun a b => a.page_index ≤ b.page_index)
                (c.map (mkPageInfo m)) with
            | p :: _ => if p.has_titleblock then some p else none
            | [] => none }).1 := by
      unfold processCluster
      rw [hm]
    refine ⟨m, _, rfl, hpc, ?_, ?_⟩
    · rw [validateConsistency_pages]
      exact List.perm_insertionSort _ _
    · rw [validateConsistency_pages]
      rw [(List.perm_insertionSort
        (fun a b => a.page_index ≤ b.page_index)
        (c.map (mkPageInfo m))).length_eq]
      exact List.length_map _ _

/-- The keep condition of the per-cluster loop: clusters of fewer than 2
frames are skipped. -/
def okCluster (c : List FrameMeta) : Bool := decide (2 ≤ c.length)

theorem processClusters_cons (idGen : ℕ → String) (k : ℕ)
    (c : List FrameMeta) (rest : List (List FrameMeta)) :
    processClusters idGen k (c :: rest) =
      if c.length < 2 then processClusters idGen (k + 1) rest
      else
        match processCluster (idGen k) c with
        | none => processClusters idGen (k + 1) rest
        | some ss =>
          (ss :: (processClusters idGen (k + 1) rest).1,
           c.map FrameMeta.frame_id ++
             (processClusters idGen (k + 1) rest).2) := rfl

theorem processClusters_spec (idGen : ℕ → String) :
    ∀ (k : ℕ) (cs : List (List FrameMeta)),
      (processClusters idGen k cs).2 =
        ((cs.filter okCluster).flatten).map FrameMeta.frame_id ∧
      List.Forall₂
        (fun (ss : SheetSet) (c : List FrameMeta) =>
          ∃ m, identifyMaster c = some m ∧
            List.Perm ss.pages (c.map (mkPageInfo m)) ∧
            ss.pages.length = c.length)
        (processClusters idGen k cs).1 (cs.filter okCluster) := by
  intro k cs
  induction cs generalizing k with
  | nil => exact ⟨rfl, List.Forall₂.nil⟩
  | cons c rest ih =>
    by_cases hlen : c.length < 2
    · have hok : okCluster c = false := by
        unfold okCluster
        simp only [decide_eq_false_iff_not]
        omega
      have hred : processClusters idGen k (c :: rest)
          = processClusters idGen (k + 1) rest := by
        rw [processClusters_cons, if_pos hlen]
      rw [hred, List.filter_cons_of_neg (by simp [hok])]
      exact ih (k + 1)
    · have hne : c ≠ [] := by
        intro h
        rw [h] at hlen
        exact hlen (by simp)
      obtain ⟨m, ss, hm, hpc, hperm, hsslen⟩ :=
        processCluster_char (idGen k) c hne
      have hred : processClusters idGen k (c :: rest) =
          (ss :: (processClusters idGen (k + 1) rest).1,
           c.map FrameMeta.frame_id ++
             (processClusters idGen (k + 1) rest).2) := by
        rw [processClusters_cons, if_neg hlen, hpc]
      have hok : okCluster c = true := by
        unfold okCluster
        simp only [decide_eq_true_eq]
        omega
      obtain ⟨ih2, ihf⟩ := ih (k + 1)
      rw [hred, List.filter_cons_of_pos hok]
      constructor
      · show c.map FrameMeta.frame_id ++
            (processClusters idGen (k + 1) rest).2 = _
        rw [ih2, List.flatten_cons, List.map_append]
      · exact List.Forall₂.cons ⟨m, hm, hperm, hsslen⟩ ihf

theorem buildClustersFrames_ne (gapFactor : ℚ) (l : List FrameMeta)
    (h : l ≠ []) :
    buildClustersFrames gapFactor l =
      (buildClusters (buildAdj gapFactor l) l.length).map
        (fun c => c.map (fun i => l.getD i dfltFrame)) := by
  cases l with
  | nil => exact absurd rfl h
  | cons x t => rfl

theorem groupA4Pages_eq (gapFactor : ℚ) (idGen : ℕ → String)
    (frames : List FrameMeta) :
    groupA4Pages gapFactor idGen frames =
      if (frames.filter isA4Frame).length < 2 then (frames, [])
      else
        (frames.filter (fun f =>
          !((processClusters idGen 0
              (buildClustersFrames gapFactor
                (frames.filter isA4Frame))).2.contains f.frame_id)),
         (processClusters idGen 0
           (buildClustersFrames gapFactor (frames.filter isA4Frame))).1) :=
  rfl

theorem flatten_clustersFrames_perm (gapFactor : ℚ) (l : List FrameMeta)
    (h : l ≠ []) :
    List.Perm (buildClustersFrames gapFactor l).flatten l := by
  rw [buildClustersFrames_ne gapFactor l h]
  have h1 : ((buildClusters (buildAdj gapFactor l) l.length).map
        (fun c => c.map (fun i => l.getD i dfltFrame))).flatten
      = ((buildClusters (buildAdj gapFactor l) l.length).flatten).map
          (fun i => l.getD i dfltFrame) :=
    (List.map_flatten _ _).symm
  rw [h1]
  have h2 := (buildClusters_perm (buildAdj gapFactor l) l.length).map
    (fun i => l.getD i dfltFrame)
  rw [map_getD_range l dfltFrame] at h2
  exact h2

/-- C10: group_a4_pages partitions the input frames. Provided all frame ids
are distinct, there is a list of absorbed clusters, one per returned sheet
set, such that the remaining frames plus the absorbed frames are a
permutation of the input (no frame duplicated or dropped); each sheet set's
pages correspond one-to-one (as a permutation) to the PageInfo records of
its cluster's frames built from the identified master, so every absorbed
frame appears as a page of exactly one sheet set; every absorbed cluster has
at least 2 frames; and master identification never fails on a non-empty
cluster. -/
theorem C10_group_partition (gapFactor : ℚ) (idGen : ℕ → String)
    (frames : List FrameMeta)
    (hnd : (frames.map FrameMeta.frame_id).Nodup) :
    (∃ cs : List (List FrameMeta),
      List.Perm ((groupA4Pages gapFactor idGen frames).1 ++ cs.flatten)
        frames ∧
      List.Forall₂
        (fun (ss : SheetSet) (c : List FrameMeta) =>
          ∃ m, identifyMaster c = some m ∧
            List.Perm ss.pages (c.map (mkPageInfo m)) ∧
            ss.pages.length = c.length)
        (groupA4Pages gapFactor idGen frames).2 cs ∧
      ∀ c ∈ cs, 2 ≤ c.length) ∧
    (∀ c : List FrameMeta, c ≠ [] → (identifyMaster c).isSome = true) := by
  refine ⟨?_, fun c hc => identifyMaster_isSome c hc⟩
  by_cases h2 : (frames.filter isA4Frame).length < 2
  · refine ⟨[], ?_, ?_, ?_⟩
    · rw [groupA4Pages_eq, if_pos h2]
      show List.Perm (frames ++ [].flatten) frames
      rw [List.flatten_nil, List.append_nil]
    · rw [groupA4Pages_eq, if_pos h2]
      exact List.Forall₂.nil
    · intro c hc
      cases hc
  · have hne : frames.filter isA4Frame ≠ [] := by
      intro h
      rw [h] at h2
      exact h2 (by simp)
    obtain ⟨hids, hfor⟩ := processClusters_spec idGen 0
      (buildClustersFrames gapFactor (frames.filter isA4Frame))
    refine ⟨(buildClustersFrames gapFactor
      (frames.filter isA4Frame)).filter okCluster, ?_, ?_, ?_⟩
    · rw [groupA4Pages_eq, if_neg h2]
      have hS := flatten_filter_perm okCluster
        (buildClustersFrames gapFactor (frames.filter isA4Frame))
      have hfl := flatten_clustersFrames_perm gapFactor
        (frames.filter isA4Frame) hne
      have hfr := List.filter_append_perm isA4Frame frames
      have hframes : List.Perm frames
          ((((buildClustersFrames gapFactor
              (frames.filter isA4Frame)).filter okCluster).flatten) ++
           ((((buildClustersFrames gapFactor
               (frames.filter isA4Frame)).filter
                 (fun c => !(okCluster c))).flatten) ++
            frames.filter (fun f => !(isA4Frame f)))) := by
        refine List.Perm.trans hfr.symm ?_
        rw [← List.append_assoc]
        exact List.Perm.append_right _ ((hS.trans hfl).symm)
      have hmapnd := (List.Perm.nodup (hframes.map FrameMeta.frame_id) hnd)
      rw [List.map_append] at hmapnd
      have hdisj := (List.nodup_append.mp hmapnd).2.2
      have hQS : ∀ f ∈ (((buildClustersFrames gapFactor
          (frames.filter isA4Frame)).filter okCluster).flatten),
          ¬((fun f => !((processClusters idGen 0
              (buildClustersFrames gapFactor
                (frames.filter isA4Frame))).2.contains f.frame_id)) f
            = true) := by
        intro f hf
        have hmem : f.frame_id ∈ (processClusters idGen 0
            (buildClustersFrames gapFactor (frames.filter isA4Frame))).2 := by
          rw [hids]
          exact List.mem_map.mpr ⟨f, hf, rfl⟩
        simp
        exact hmem
      have hQR : ∀ f ∈ ((((buildClustersFrames gapFactor
            (frames.filter isA4Frame)).filter
              (fun c => !(okCluster c))).flatten) ++
          frames.filter (fun f => !(isA4Frame f))),
          ((fun f => !((processClusters idGen 0
              (buildClustersFrames gapFactor
                (frames.filter isA4Frame))).2.contains f.frame_id)) f
            = true) := by
        intro f hf
        have hnm : f.frame_id ∉ (processClusters idGen 0
            (buildClustersFrames gapFactor (frames.filter isA4Frame))).2 := by
          rw [hids]
          intro hmem
          exact hdisj hmem (List.mem_map.mpr ⟨f, hf, rfl⟩)
        simp
        exact hnm
      have hrem := List.Perm.filter
        (fun f => !((processClusters idGen 0
            (buildClustersFrames gapFactor
              (frames.filter isA4Frame))).2.contains f.frame_id))
        hframes
      rw [List.filter_append, List.filter_eq_nil_iff.mpr hQS,
        List.nil_append,
        List.filter_eq_self.mpr hQR] at hrem
      refine List.Perm.trans (List.Perm.append_right _ hrem) ?_
      refine List.Perm.trans List.perm_append_comm ?_
      exact hframes.symm
    · rw [groupA4Pages_eq, if_neg h2]
      exact hfor
    · intro c hc
      have := List.of_mem_filter hc
      unfold okCluster at this
      exact of_decide_eq_true this

/-! ## Concrete instantiations of the hypothesized claim theorems -/

/-- C1 instantiated: on a 1189 x 841 rectangle and a single A0 catalog
entry, the returned fit is a member of fit_all with minimal error. -/
theorem C1_paperFitter_fit_minimal_witness :
    ∃ e : FitEntry,
      e ∈ fitAll PaperFitterCfg.default ⟨0, 0, 1189, 841⟩
          [(("A0" : String), ⟨1189, 841, ("BASE10" : String)⟩)] ∧
      e.variantId = "A0" ∧ e.sx = 1 ∧ e.sy = 1 ∧ e.profile = "BASE10" ∧
      ∀ e' ∈ fitAll PaperFitterCfg.default ⟨0, 0, 1189, 841⟩
          [(("A0" : String), ⟨1189, 841, ("BASE10" : String)⟩)],
        e.error ≤ e'.error :=
  (C1_paperFitter_fit_minimal PaperFitterCfg.default ⟨0, 0, 1189, 841⟩
      [(("A0" : String), ⟨1189, 841, ("BASE10" : String)⟩)]).2.1
    ("A0") 1 1 ("BASE10") (by with_unfolding_all decide)

/-- C2 (amended) instantiated: the 19 forward-ordered fragments reconstruct
to the stream-order concatenation. -/
theorem C2_externalCode_amended_witness :
    parseExternalCode (extractTextsInRoi entsFwd roiC2) =
      some (("ABEFGHJKLMPQRSTUVWX").data) := by
  have h := C2_externalCode_amended entsFwd roiC2 0
    (by with_unfolding_all decide) (by with_unfolding_all decide)
    (by with_unfolding_all decide) (by with_unfolding_all decide)
  rw [h]
  with_unfolding_all decide

/-- C4 instantiated: the grouper predicate on two touching A4 frames agrees
with the spec formula. -/
theorem C4_neighbors_witness :
    framesAreNeighbors (mkA4Frame ("a") 0 0) (mkA4Frame ("b") 210 0) (1 / 2)
        = true ↔
      specNeighbors (mkA4Frame ("a") 0 0).runtime.outer_bbox
        (mkA4Frame ("b") 210 0).runtime.outer_bbox (1 / 2) :=
  (C4_neighbors (1 / 2)).1 (mkA4Frame ("a") 0 0) (mkA4Frame ("b") 210 0)
    (by with_unfolding_all decide) (by with_unfolding_all decide)

/-- C5 instantiated: in the 3-frame fixture cluster the identified master
fHigh attains the maximal score. -/
theorem C5_identifyMaster_max_witness :
    fHigh ∈ [fLow, fHigh, fSlave] ∧
    (∀ f ∈ [fLow, fHigh, fSlave],
      calculateMasterScore f ≤ calculateMasterScore fHigh) ∧
    ∃ pre post, [fLow, fHigh, fSlave] = pre ++ fHigh :: post ∧
      ∀ f ∈ pre, calculateMasterScore f < calculateMasterScore fHigh :=
  (C5_identifyMaster_max [fLow, fHigh, fSlave] fHigh).1
    (by with_unfolding_all decide)

/-- C6 (amended) instantiated: an ROI text with no Chinese label characters
parses to (None, None). -/
theorem C6_pageInfo_amended_witness :
    parsePageInfo [⟨("NO LABEL HERE").data, 0, 0⟩] = (none, none) :=
  C6_pageInfo_amended [⟨("NO LABEL HERE").data, 0, 0⟩]
    (by decide) (by decide)

/-- C7 instantiated: the two spec examples of the full phrase. -/
theorem C7_pageInfo_phrase_witness :
    parsePageInfo [⟨("共20张第X张").data, 0, 0⟩] = (some 20, some 1) ∧
    parsePageInfo [⟨("共5张 第3张").data, 0, 0⟩] = (some 5, some 3) := by
  constructor
  · have h := C7_pageInfo_phrase [⟨("共20张第X张").data, 0, 0⟩]
      [] [] (("20").data) [] [] [] (['X']) [] []
      (by decide) (by decide) (by decide) (by decide) (by decide)
      (by decide) (by decide) ⟨by decide, by decide⟩ (Or.inl rfl)
    rw [h]
    decide
  · have h := C7_pageInfo_phrase [⟨("共5张 第3张").data, 0, 0⟩]
      [] [] (("5").data) [] ([' ']) [] (['3']) [] []
      (by decide) (by decide) (by decide) (by decide) (by decide)
      (by decide) (by decide) ⟨by decide, by decide⟩
      (Or.inr (Or.inr ⟨by decide, by decide⟩))
    rw [h]
    decide

/-- C8 (amended) instantiated: a successful parse returns the
normalization of a gathered text that matches the pattern. -/
theorem C8_internalCode_amended_witness :
    ∃ t ∈ [(⟨("1234567-JG001-001").data, 0, 0⟩ : TextRec)],
      ("1234567-JG001-001").data = normalizeInternal t.text ∧
      matchInternalCode (("1234567-JG001-001").data) = true :=
  C8_internalCode_amended.2.1 [⟨("1234567-JG001-001").data, 0, 0⟩]
    (("1234567-JG001-001").data) (by decide)

/-- C9 (amended) instantiated: an ordered offset tuple with unit scales and
a nonnegative font height give invariant-satisfying rectangles. -/
theorem C9_bbox_invariant_witness :
    (restoreRoi ⟨0, 0, 100, 100⟩ ⟨10, 50, 0, 10⟩ 1 1).inv ∧
    (bboxFromText (("AB").data) 0 0 1 0 0).inv := by
  constructor
  · exact C9_bbox_invariant.2.2.1 ⟨0, 0, 100, 100⟩ ⟨10, 50, 0, 10⟩ 1 1
      (by with_unfolding_all decide) (by with_unfolding_all decide)
      (by with_unfolding_all decide) (by with_unfolding_all decide)
  · exact C9_bbox_invariant.2.2.2.1 (("AB").data) 0 0 1 0 0
      (by with_unfolding_all decide)

/-- C10 instantiated: two touching A4 frames with distinct ids are
partitioned by group_a4_pages. -/
theorem C10_group_partition_witness :
    ∃ cs : List (List FrameMeta),
      List.Perm ((groupA4Pages (1 / 2) (fun _ => ("cl" : String))
          [mkA4Frame ("a") 0 0, mkA4Frame ("b") 210 0]).1 ++ cs.flatten)
        [mkA4Frame ("a") 0 0, mkA4Frame ("b") 210 0] ∧
      List.Forall₂
        (fun (ss : SheetSet) (c : List FrameMeta) =>
          ∃ m, identifyMaster c = some m ∧
            List.Perm ss.pages (c.map (mkPageInfo m)) ∧
            ss.pages.length = c.length)
        (groupA4Pages (1 / 2) (fun _ => ("cl" : String))
          [mkA4Frame ("a") 0 0, mkA4Frame ("b") 210 0]).2 cs ∧
      ∀ c ∈ cs, 2 ≤ c.length :=
  (C10_group_partition (1 / 2) (fun _ => ("cl" : String))
    [mkA4Frame ("a") 0 0, mkA4Frame ("b") 210 0] (by decide)).1

end Spec2Proof
